import Mathlib

/-!
Verification of the BAI2-to-CSV converter core (`convert.py`): the line
driver `parse_bai2`, its per-record-kind positional field extraction, the
Python-`decimal` amount normalization for TransactionDetail records, and
the table aggregation performed by the converter before `write_csv`.

Strings are modelled by Lean `String`/`List Char`.  Python `decimal.Decimal`
values are modelled by `PyDecimal`; arithmetic follows the default decimal
context (precision 28, ROUND_HALF_EVEN, Emax 999999, traps on
InvalidOperation and Overflow).  Subnormal underflow (untrapped in the
default context) is not modelled: it only affects values below 1e-999998,
all of which render identically under the 2-decimal-place formatting used
here.  Python `str.strip` is modelled over the ASCII whitespace characters.
-/

namespace Bai2

/-- ASCII whitespace characters stripped by Python `str.strip()`. -/
def pyIsSpace (c : Char) : Bool :=
  c == ' ' || c == '\t' || c == '\n' || c == '\x0d' || c == '\x0b' || c == '\x0c'

/-- Strip leading and trailing whitespace from a character list. -/
def pyStripList (l : List Char) : List Char :=
  ((l.dropWhile pyIsSpace).reverse.dropWhile pyIsSpace).reverse

/-- Python `str.strip()` (no argument): trim whitespace from both ends. -/
def pyStrip (s : String) : String := ⟨pyStripList s.data⟩

/-- Auxiliary for comma splitting: `acc` holds the current field reversed. -/
def splitCommaList : List Char → List Char → List String
  | [], acc => [⟨acc.reverse⟩]
  | c :: cs, acc =>
      if c = ',' then ⟨acc.reverse⟩ :: splitCommaList cs [] else splitCommaList cs (c :: acc)

/-- Python `raw.split(",")`. -/
def pySplitComma (s : String) : List String := splitCommaList s.data []

/-- Join fields with commas (the re-encoding direction of the round trip). -/
def joinCommaList : List String → List Char
  | [] => []
  | [x] => x.data
  | x :: y :: ys => x.data ++ ',' :: joinCommaList (y :: ys)

/-- Join a field list into one comma-separated line. -/
def joinComma (xs : List String) : String := ⟨joinCommaList xs⟩

/-- Python `raw.endswith("/")`. -/
def pyEndsWithSlash (s : String) : Bool := s.data.getLast? == some '/'

/-- Python `raw[:-1]`: drop the final character. -/
def dropLastChar (s : String) : String := ⟨s.data.dropLast⟩

/-- `HDR_FIELDS` of `convert.py`: the FileHeader ("01") schema. -/
def HDR_FIELDS : List String :=
  ["record_code", "sender_id", "receiver_id", "creation_date",
   "creation_time", "file_id", "version", "physical_record_length"]

/-- `GRP_FIELDS` of `convert.py`: the GroupHeader ("02") schema. -/
def GRP_FIELDS : List String :=
  ["record_code", "file_id", "group_id", "creation_date", "creation_time", "currency"]

/-- `ACC_FIELDS` of `convert.py`: the AccountIdentifier ("03") schema. -/
def ACC_FIELDS : List String :=
  ["record_code", "account_number", "currency", "type_code_summary"]

/-- `TXN_FIELDS` of `convert.py`: the TransactionDetail ("16") schema. -/
def TXN_FIELDS : List String :=
  ["record_code", "type_code", "amount", "funds_type", "bank_ref", "customer_ref", "text"]

/-- A decoded record: a Python dict in insertion order (key, value pairs). -/
abbrev Record := List (String × String)

/-- `rec["record_code"]` with empty-string fallback. -/
def recordCode (r : Record) : String := (List.lookup "record_code" r).getD ""

/-- Assignment `out[k] = v` to an existing key of a dict, preserving order. -/
def setField (r : Record) (k v : String) : Record :=
  r.map (fun kv => if kv.1 = k then (k, v) else kv)

/-- A Python `decimal.Decimal` value: finite `(-1)^sign * coeff * 10^exp`,
an infinity, or a (quiet or signaling) NaN with diagnostic payload. -/
inductive PyDecimal where
  | fin (sign : Bool) (coeff : Nat) (exp : Int)
  | inf (sign : Bool)
  | nan (sign : Bool) (signaling : Bool) (payload : List Char)
deriving DecidableEq

/-- A decimal-module exception raised under the default context traps. -/
inductive PyExc where
  | invalidOperation
  | overflow
deriving DecidableEq

/-- Decimal digit characters. -/
def isDigitChar (c : Char) : Bool := '0' ≤ c && c ≤ '9'

/-- Numeric value of a decimal digit character. -/
def digitVal (c : Char) : Nat := c.toNat - 48

/-- Fold a digit string into its value, starting from `acc`. -/
def natOfDigitsAux : Nat → List Char → Nat
  | acc, [] => acc
  | acc, c :: cs => natOfDigitsAux (10 * acc + digitVal c) cs

/-- Value of a decimal digit string. -/
def natOfDigits (ds : List Char) : Nat := natOfDigitsAux 0 ds

/-- Case-insensitively consume the literal `lit` (given lowercase) from the
front of `cs`, returning the rest. -/
def dropLitCI : List Char → List Char → Option (List Char)
  | [], cs => some cs
  | _ :: _, [] => none
  | p :: ps, c :: cs => if c.toLower = p then dropLitCI ps cs else none

/-- Split an optional leading sign: `true` means negative. -/
def signSplit : List Char → Bool × List Char
  | [] => (false, [])
  | c :: cs =>
      if c = '-' then (true, cs)
      else if c = '+' then (false, cs) else (false, c :: cs)

/-- The optional exponent clause `E [sign] digits` of the decimal grammar,
applied to an already-parsed coefficient. -/
def expTail (sign : Bool) (coeff : Nat) (fplen : Nat) (r : List Char) : Option PyDecimal :=
  let es := signSplit r
  let ed := es.2.takeWhile isDigitChar
  if ed = [] then none
  else if es.2.dropWhile isDigitChar ≠ [] then none
  else
    some (.fin sign coeff
      ((if es.1 then -(natOfDigits ed : Int) else (natOfDigits ed : Int)) - (fplen : Int)))

/-- Validate the integer/fractional digit groups and the tail after them:
at least one digit overall, then either end of input or an exponent. -/
def finTail2 (sign : Bool) (ip fp cs2 : List Char) : Option PyDecimal :=
  if ip ++ fp = [] then none
  else
    match cs2 with
    | [] => some (.fin sign (natOfDigits (ip ++ fp)) (-(fp.length : Int)))
    | e :: r =>
        if e.toLower = 'e' then expTail sign (natOfDigits (ip ++ fp)) fp.length r
        else none

/-- Parse the numeric (finite) alternative of the decimal grammar:
`digits [. digits] [E [sign] digits]` with at least one digit. -/
def finTail (sign : Bool) (cs : List Char) : Option PyDecimal :=
  match cs.dropWhile isDigitChar with
  | '.' :: r =>
      finTail2 sign (cs.takeWhile isDigitChar) (r.takeWhile isDigitChar)
        (r.dropWhile isDigitChar)
  | _ => finTail2 sign (cs.takeWhile isDigitChar) [] (cs.dropWhile isDigitChar)

/-- Parse `NaN digits` (case-insensitive) with the signaling flag already
determined; the payload keeps no leading zeros. -/
def nanTail (sign signaling : Bool) (cs1 : List Char) : Option PyDecimal :=
  match dropLitCI ['n', 'a', 'n'] cs1 with
  | some rest =>
      if rest.all isDigitChar then
        some (.nan sign signaling (rest.dropWhile (· = '0')))
      else none
  | none => none

/-- Parse the special alternatives of the decimal grammar:
`Inf`, `Infinity`, `NaN digits`, `sNaN digits` (case-insensitive). -/
def specialTail (sign : Bool) (cs : List Char) : Option PyDecimal :=
  match dropLitCI ['i', 'n', 'f'] cs with
  | some rest =>
      if rest = [] then some (.inf sign)
      else
        match dropLitCI ['i', 'n', 'i', 't', 'y'] rest with
        | some [] => some (.inf sign)
        | _ => none
  | none =>
      match cs with
      | c :: r => if c.toLower = 's' then nanTail sign true r else nanTail sign false (c :: r)
      | [] => nanTail sign false []

/-- Parse a stripped, underscore-free character list: an optional sign,
then the numeric alternative, else the special alternatives. -/
def parseSigned (cs : List Char) : Option PyDecimal :=
  match finTail (signSplit cs).1 (signSplit cs).2 with
  | some d => some d
  | none => specialTail (signSplit cs).1 (signSplit cs).2

/-- The `decimal.Decimal(str)` constructor: strip whitespace, delete
underscores, then match the decimal numeric-string grammar.  `none` models
the trapped `InvalidOperation` (conversion syntax) exception. -/
def pyDecimalOfString (v : String) : Option PyDecimal :=
  parseSigned ((pyStripList v.data).filter (fun c => c ≠ '_'))

/-- Context precision of the default decimal context. -/
def prec : Nat := 28

/-- Emax of the default decimal context. -/
def Emax : Int := 999999

/-- Render a value of 0-9 as a decimal digit character. -/
def decDigit (d : Nat) : Char :=
  if d = 0 then '0' else if d = 1 then '1' else if d = 2 then '2'
  else if d = 3 then '3' else if d = 4 then '4' else if d = 5 then '5'
  else if d = 6 then '6' else if d = 7 then '7' else if d = 8 then '8' else '9'

/-- Decimal rendering of a natural number, fuel-structured so that the
kernel can evaluate it (`fuel > n` suffices). -/
def natToDecAux : Nat → Nat → List Char → List Char
  | 0, _, acc => acc
  | fuel + 1, n, acc =>
      if n < 10 then decDigit n :: acc
      else natToDecAux fuel (n / 10) (decDigit (n % 10) :: acc)

/-- Python `str(n)` for a natural number. -/
def natToDec (n : Nat) : List Char := natToDecAux (n + 1) n []

/-- Number of decimal digits of a coefficient, as `len(str(n))`. -/
def numDigits (n : Nat) : Nat := (natToDec n).length

/-- Round `q + r / p` (with `r < p`) to an integer, ties to even. -/
def roundHalfEven (q r p : Nat) : Nat :=
  if p < 2 * r then q + 1
  else if 2 * r < p then q
  else if q % 2 = 0 then q else q + 1

/-- Smallest `d` with `c / 10^d < 10^prec` (the digits beyond the context
precision), fuel-structured for kernel evaluation. -/
def excessDigitsAux : Nat → Nat → Nat
  | 0, _ => 0
  | fuel + 1, c =>
      if c < 10 ^ prec then 0 else excessDigitsAux fuel (c / 10) + 1

/-- Digits of `c` in excess of the context precision. -/
def excessDigits (c : Nat) : Nat := excessDigitsAux (c + 1) c

/-- Coefficient and exponent of a finite decimal divided by 100: exact when
the coefficient fits in the context precision, otherwise rounded half-even
to `prec` significant digits (as `Decimal.__truediv__` plus `_fix`). -/
def divide100fin (c : Nat) (e : Int) : Nat × Int :=
  if c < 10 ^ prec then (c, e - 2)
  else
    let d := excessDigits c
    let p := 10 ^ d
    (roundHalfEven (c / p) (c % p) p, e - 2 + (d : Int))

/-- Clamp a NaN payload to the context's maximum payload length, as
`Decimal._fix_nan` does before propagating a quiet NaN. -/
def clampPayload (p : List Char) : List Char :=
  if p.length ≤ prec then p else (p.drop (p.length - prec)).dropWhile (· = '0')

/-- `x / Decimal(100)` under the default context: signaling NaN traps
InvalidOperation, quiet NaN and infinities propagate, finite values divide
exactly up to the context precision, and a result whose adjusted exponent
exceeds Emax traps Overflow. -/
def divide100 : PyDecimal → Except PyExc PyDecimal
  | .fin s c e =>
      let q := divide100fin c e
      if 0 < q.1 ∧ Emax < q.2 + (numDigits q.1 : Int) - 1 then .error .overflow
      else .ok (.fin s q.1 q.2)
  | .inf s => .ok (.inf s)
  | .nan s false p => .ok (.nan s false (clampPayload p))
  | .nan _ true _ => .error .invalidOperation

/-- Two-character zero padding of a value below 100. -/
def pad2 (n : Nat) : List Char := if n < 10 then '0' :: natToDec n else natToDec n

/-- Fixed-point rendering of `(-1)^sign * n / 100` with two fractional
digits. -/
def renderFixed2 (sign : Bool) (n : Nat) : String :=
  ⟨(if sign then ['-'] else []) ++ natToDec (n / 100) ++ '.' :: pad2 (n % 100)⟩

/-- Python `f"{amt:.2f}"` on a Decimal: quantize a finite value to two
decimal places (ties to even) and render it fixed-point with the sign;
special values render as their `str` form, keeping the sign and payload. -/
def format2f : PyDecimal → String
  | .inf s => ⟨(if s then ['-'] else []) ++ ['I', 'n', 'f', 'i', 'n', 'i', 't', 'y']⟩
  | .nan s sig p =>
      ⟨(if s then ['-'] else []) ++ (if sig then ['s', 'N', 'a', 'N'] else ['N', 'a', 'N']) ++ p⟩
  | .fin s c e =>
      let n :=
        if 0 ≤ e + 2 then c * 10 ^ (e + 2).toNat
        else
          let p := 10 ^ (-(e + 2)).toNat
          roundHalfEven (c / p) (c % p) p
      renderFixed2 s n

/-- Python `"." in amt`. -/
def containsDot (s : String) : Bool := s.data.contains '.'

/-- The amount branch of the "16" case of `parse_bai2`: divide by 100 when
the raw string has no decimal point, parse directly when it has one, and
re-render with two decimal places. -/
def normalize_amount (amt : String) : Except PyExc String :=
  if containsDot amt = false then
    match pyDecimalOfString amt with
    | none => .error .invalidOperation
    | some d => (divide100 d).map format2f
  else
    match pyDecimalOfString amt with
    | none => .error .invalidOperation
    | some d => .ok (format2f d)

/-- The "16" branch of `parse_bai2`: pad the fields up to the schema
length, zip them against the schema, and overwrite the amount field with
its normalization. -/
def decode16 (parts : List String) : Except PyExc (Option Record) :=
  let padded := parts ++ List.replicate (TXN_FIELDS.length - parts.length) ""
  let out := TXN_FIELDS.zip (padded.take TXN_FIELDS.length)
  let amt := (List.lookup "amount" out).getD ""
  match normalize_amount amt with
  | .error e => .error e
  | .ok a => .ok (some (setField out "amount" a))

/-- Dispatch on the record code: the body of the `for` loop of `parse_bai2`
after line reconstruction, acting on the comma-split fields. -/
def decodeParts (parts : List String) : Except PyExc (Option Record) :=
  let code := parts.headD ""
  if code = "01" then .ok (some (HDR_FIELDS.zip (parts.take HDR_FIELDS.length)))
  else if code = "02" then .ok (some (GRP_FIELDS.zip (parts.take GRP_FIELDS.length)))
  else if code = "03" then .ok (some (ACC_FIELDS.zip (parts.take ACC_FIELDS.length)))
  else if code = "16" then decode16 parts
  else .ok none

/-- One physical line of `parse_bai2`: trim, skip if empty, strip one
trailing terminator, split on commas, dispatch.  `.ok none` is a consumed
line with no record. -/
def processLine (raw : String) : Except PyExc (Option Record) :=
  let t := pyStrip raw
  if t = "" then .ok none
  else
    let t := if pyEndsWithSlash t then dropLastChar t else t
    decodeParts (pySplitComma t)

/-- `parse_bai2` over a list of input lines: the records yielded in order,
or the first decode exception. -/
def parse_bai2 : List String → Except PyExc (List Record)
  | [] => .ok []
  | l :: ls =>
      match processLine l with
      | .error e => .error e
      | .ok none => parse_bai2 ls
      | .ok (some r) => (parse_bai2 ls).map (r :: ·)

/-- One output row of `write_csv`: `{k: r.get(k, "") for k in columns}`. -/
def csvRow (columns : List String) (r : Record) : List String :=
  columns.map (fun k => (List.lookup k r).getD "")

/-- `write_csv` as its consumer contract: the header row followed by one
row per record. -/
def write_csv (rows : List Record) (columns : List String) : List (List String) :=
  columns :: rows.map (csvRow columns)

/-- The record-grouping and table-writing performed by the converter: parse
all lines, partition by record code into header, account and transaction
rows, and render the three tables. -/
def convert (lines : List String) :
    Except PyExc (List (List String) × List (List String) × List (List String)) :=
  match parse_bai2 lines with
  | .error e => .error e
  | .ok recs =>
      let headers := recs.filter (fun r => recordCode r = "01")
      let accounts := recs.filter (fun r => recordCode r = "03")
      let txns := recs.filter (fun r => recordCode r = "16")
      .ok (write_csv headers HDR_FIELDS, write_csv accounts ACC_FIELDS,
           write_csv txns TXN_FIELDS)

/-- The record code a line is dispatched on: first comma-separated field of
the trimmed, de-terminated line. -/
def lineCode (raw : String) : String :=
  let t := pyStrip raw
  (pySplitComma (if pyEndsWithSlash t then dropLastChar t else t)).headD ""

/-- Spec-side: a plain signed integer numeral (optional sign, then digits),
with its sign and value. -/
def decomposeIntNumeral (s : String) : Option (Bool × Nat) :=
  let sc := signSplit s.data
  if sc.2 ≠ [] ∧ sc.2.all isDigitChar then some (sc.1, natOfDigits sc.2) else none

/-- Spec-side: the exact rendering of `n` minor units as a major-unit value
with two fractional digits, the stated contract of amount normalization. -/
def exactCents (sign : Bool) (n : Nat) : String :=
  ⟨(if sign then ['-'] else []) ++ natToDec (n / 100) ++ '.' :: pad2 (n % 100)⟩

/-- Spec-side: a string that reads as an integer or decimal number - an
optional sign, then digits with at most one decimal point and at least one
digit. -/
def isIntOrDecNumeral (s : String) : Bool :=
  let sc := signSplit s.data
  let ip := sc.2.takeWhile isDigitChar
  let rest := sc.2.dropWhile isDigitChar
  match rest with
  | [] => ip ≠ []
  | '.' :: r => (ip ≠ [] || r ≠ []) && r.all isDigitChar
  | _ => false

/-- Drop one leading minus sign if present. -/
def stripMinus : List Char → List Char
  | '-' :: r => r
  | r => r

/-- Spec-side: a fixed-point decimal string with exactly two fractional
digits - optional minus sign, at least one integer digit, a point, two
digits. -/
def isTwoFracDecimal (s : String) : Bool :=
  match (stripMinus s.data).reverse with
  | d1 :: d2 :: '.' :: rest =>
      isDigitChar d1 && isDigitChar d2 && rest ≠ [] && rest.all isDigitChar
  | _ => false

/-- The raw amount field of a comma-split "16" line (third field, empty
when absent). -/
def rawAmountOf (parts : List String) : String := parts.getD 2 ""

/-- Spec-side: the field schema associated with a record code. -/
def schemaOf (code : String) : List String :=
  if code = "01" then HDR_FIELDS
  else if code = "02" then GRP_FIELDS
  else if code = "03" then ACC_FIELDS
  else TXN_FIELDS

/-! ### Character and whitespace lemmas -/

theorem space_not_digit {c : Char} (h : pyIsSpace c = true) : isDigitChar c = false := by
  simp only [pyIsSpace, Bool.or_eq_true, beq_iff_eq] at h
  rcases h with ((((h | h) | h) | h) | h) | h <;> subst h <;> decide

theorem digit_not_space {c : Char} (h : isDigitChar c = true) : pyIsSpace c = false := by
  cases hs : pyIsSpace c
  · rfl
  · rw [space_not_digit hs] at h; cases h

theorem dropWhile_all_false {p : Char → Bool} {l : List Char}
    (h : ∀ c ∈ l, p c = false) : l.dropWhile p = l := by
  cases l with
  | nil => rfl
  | cons c cs => simp [List.dropWhile_cons, h c (by simp)]

theorem pyStripList_of_no_space {l : List Char}
    (h : ∀ c ∈ l, pyIsSpace c = false) : pyStripList l = l := by
  unfold pyStripList
  rw [dropWhile_all_false h, dropWhile_all_false (fun c hc => h c (List.mem_reverse.mp hc)),
    List.reverse_reverse]

theorem dropWhile_head_false {p : Char → Bool} {l : List Char} {c : Char} {cs : List Char}
    (h : l.dropWhile p = c :: cs) : p c = false := by
  induction l with
  | nil => cases h
  | cons a l ih =>
      rw [List.dropWhile_cons] at h
      by_cases hp : p a = true
      · rw [if_pos hp] at h; exact ih h
      · rw [if_neg hp] at h
        cases h
        exact Bool.not_eq_true _ ▸ hp

theorem dropWhile_idem (p : Char → Bool) (l : List Char) :
    (l.dropWhile p).dropWhile p = l.dropWhile p := by
  cases h : l.dropWhile p with
  | nil => rfl
  | cons c cs => rw [List.dropWhile_cons, dropWhile_head_false h, if_neg (by simp)]

/-- The trailing-strip stage. -/
def stripR (l : List Char) : List Char := (l.reverse.dropWhile pyIsSpace).reverse

theorem stripR_idem (l : List Char) : stripR (stripR l) = stripR l := by
  unfold stripR
  rw [List.reverse_reverse, dropWhile_idem]

theorem dropWhile_append_last {p : Char → Bool} {c : Char} (hc : p c = false) :
    ∀ xs : List Char, (xs ++ [c]).dropWhile p = xs.dropWhile p ++ [c] := by
  intro xs
  induction xs with
  | nil => simp [List.dropWhile_cons, hc]
  | cons a xs ih =>
      rw [List.cons_append, List.dropWhile_cons, List.dropWhile_cons]
      by_cases hp : p a = true
      · rw [if_pos hp, if_pos hp, ih]
      · rw [if_neg hp, if_neg hp, List.cons_append]

theorem stripR_cons {c : Char} {cs : List Char} (hc : pyIsSpace c = false) :
    stripR (c :: cs) = c :: stripR cs := by
  unfold stripR
  rw [List.reverse_cons, dropWhile_append_last hc, List.reverse_append]
  rfl

theorem pyStripList_eq_stripR_dropWhile (l : List Char) :
    pyStripList l = stripR (l.dropWhile pyIsSpace) := rfl

theorem pyStripList_idem (l : List Char) : pyStripList (pyStripList l) = pyStripList l := by
  rw [pyStripList_eq_stripR_dropWhile l, pyStripList_eq_stripR_dropWhile]
  have hdw : (stripR (l.dropWhile pyIsSpace)).dropWhile pyIsSpace
      = stripR (l.dropWhile pyIsSpace) := by
    cases hm : l.dropWhile pyIsSpace with
    | nil => rfl
    | cons c cs =>
        have hc : pyIsSpace c = false := dropWhile_head_false hm
        rw [stripR_cons hc, List.dropWhile_cons, if_neg (by simp [hc])]
  rw [hdw, stripR_idem]

theorem pyStrip_idem (s : String) : pyStrip (pyStrip s) = pyStrip s := by
  unfold pyStrip
  exact congrArg String.mk (pyStripList_idem s.data)

/-! ### Split and join lemmas -/

theorem splitCommaList_ne_nil (cs acc : List Char) : splitCommaList cs acc ≠ [] := by
  induction cs generalizing acc with
  | nil => simp [splitCommaList]
  | cons c cs ih =>
      rw [splitCommaList]
      by_cases h : c = ','
      · rw [if_pos h]; simp
      · rw [if_neg h]; exact ih _

theorem joinCommaList_splitCommaList (cs : List Char) :
    ∀ acc, joinCommaList (splitCommaList cs acc) = acc.reverse ++ cs := by
  induction cs with
  | nil => intro acc; simp [splitCommaList, joinCommaList]
  | cons c cs ih =>
      intro acc
      rw [splitCommaList]
      by_cases h : c = ','
      · rw [if_pos h]
        cases hs : splitCommaList cs [] with
        | nil => exact absurd hs (splitCommaList_ne_nil cs [])
        | cons y ys =>
            rw [joinCommaList, ← hs, ih []]
            simp [h]
      · rw [if_neg h, ih (c :: acc)]
        simp

theorem joinComma_pySplitComma (s : String) : joinComma (pySplitComma s) = s := by
  unfold joinComma pySplitComma
  rw [joinCommaList_splitCommaList s.data []]
  cases s
  rfl

/-! ### Record field lemmas -/

theorem lookup_setField (r : Record) (k v f : String) :
    List.lookup f (setField r k v)
      = if f = k then (List.lookup f r).map (fun _ => v) else List.lookup f r := by
  induction r with
  | nil => simp [setField]
  | cons kv r ih =>
      rw [setField, List.map_cons]
      by_cases hk : kv.1 = k
      · rw [if_pos hk]
        by_cases hf : f = k
        · subst hf
          rw [List.lookup, List.lookup, hk, if_pos rfl]
          simp
        · rw [List.lookup, List.lookup, if_neg hf]
          have h1 : (f == k) = false := by simp [hf]
          have h2 : (f == kv.1) = false := by simp [hk ▸ hf]
          rw [h1, h2]
          rw [setField] at ih
          simpa [hf] using ih
      · rw [if_neg hk]
        by_cases hf : f = kv.1
        · subst hf
          rw [List.lookup, List.lookup]
          have h1 : (kv.1 == kv.1) = true := by simp
          rw [h1, if_neg hk]
        · rw [List.lookup, List.lookup]
          have h1 : (f == kv.1) = false := by simp [hf]
          rw [h1]
          rw [setField] at ih
          exact ih

theorem setField_keys (r : Record) (k v : String) :
    (setField r k v).map Prod.fst = r.map Prod.fst := by
  unfold setField
  rw [List.map_map]
  apply List.map_congr_left
  intro kv _
  by_cases h : kv.1 = k
  · simp [h]
  · simp [h]

theorem map_fst_zip_take {α β : Type} (F : List α) (P : List β) :
    (F.zip P).map Prod.fst = F.take P.length := by
  induction F generalizing P with
  | nil => simp
  | cons f F ih =>
      cases P with
      | nil => simp
      | cons p P => simp [List.zip_cons_cons, ih]

theorem map_snd_zip_of_length_eq {α β : Type} (F : List α) (P : List β)
    (h : F.length = P.length) : (F.zip P).map Prod.snd = P := by
  induction F generalizing P with
  | nil => cases P with
      | nil => rfl
      | cons p P => cases h
  | cons f F ih =>
      cases P with
      | nil => cases h
      | cons p P =>
          simp only [List.zip_cons_cons, List.map_cons]
          rw [ih P (by simpa using h)]

/-! ### Digit-string lemmas -/

theorem isDigitChar_decDigit (d : Nat) : isDigitChar (decDigit d) = true := by
  unfold decDigit
  split_ifs <;> decide

theorem digitVal_decDigit {d : Nat} (h : d < 10) : digitVal (decDigit d) = d := by
  interval_cases d <;> decide

theorem natToDecAux_fuel_irrel (n : Nat) :
    ∀ f f' acc, n < f → n < f' → natToDecAux f n acc = natToDecAux f' n acc := by
  induction n using Nat.strong_induction_on with
  | _ n ih =>
      intro f f' acc hf hf'
      match f, f' with
      | f + 1, f' + 1 =>
          rw [natToDecAux, natToDecAux]
          by_cases h : n < 10
          · rw [if_pos h, if_pos h]
          · rw [if_neg h, if_neg h]
            have hlt : n / 10 < n := Nat.div_lt_self (by omega) (by omega)
            exact ih (n / 10) hlt f f' _ (by omega) (by omega)

theorem natToDecAux_acc (f : Nat) :
    ∀ n acc, natToDecAux f n acc = natToDecAux f n [] ++ acc := by
  induction f with
  | zero => intro n acc; rfl
  | succ f ih =>
      intro n acc
      rw [natToDecAux, natToDecAux]
      by_cases h : n < 10
      · rw [if_pos h, if_pos h]; rfl
      · rw [if_neg h, if_neg h, ih (n / 10) [decDigit (n % 10)],
          ih (n / 10) (decDigit (n % 10) :: acc), List.append_assoc]
        rfl

theorem natToDec_eq (n : Nat) :
    natToDec n = if n < 10 then [decDigit n] else natToDec (n / 10) ++ [decDigit (n % 10)] := by
  unfold natToDec
  rw [natToDecAux]
  by_cases h : n < 10
  · rw [if_pos h, if_pos h]
  · rw [if_neg h, if_neg h, natToDecAux_acc n (n / 10) [decDigit (n % 10)]]
    have hlt : n / 10 < n := Nat.div_lt_self (by omega) (by omega)
    rw [natToDecAux_fuel_irrel (n / 10) n (n / 10 + 1) [] (by omega) (by omega)]

theorem natToDec_all_digits (n : Nat) : ∀ c ∈ natToDec n, isDigitChar c = true := by
  induction n using Nat.strong_induction_on with
  | _ n ih =>
      rw [natToDec_eq]
      by_cases h : n < 10
      · rw [if_pos h]
        intro c hc
        rw [List.mem_singleton] at hc
        exact hc ▸ isDigitChar_decDigit n
      · rw [if_neg h]
        intro c hc
        rcases List.mem_append.mp hc with hc | hc
        · exact ih (n / 10) (Nat.div_lt_self (by omega) (by omega)) c hc
        · rw [List.mem_singleton] at hc
          exact hc ▸ isDigitChar_decDigit (n % 10)

theorem natToDec_ne_nil (n : Nat) : natToDec n ≠ [] := by
  rw [natToDec_eq]
  by_cases h : n < 10
  · rw [if_pos h]; simp
  · rw [if_neg h]; simp

theorem natOfDigitsAux_nil (a : Nat) : natOfDigitsAux a [] = a := rfl

theorem natOfDigitsAux_cons (a : Nat) (c : Char) (cs : List Char) :
    natOfDigitsAux a (c :: cs) = natOfDigitsAux (10 * a + digitVal c) cs := rfl

theorem natOfDigitsAux_append (a : Nat) (xs ys : List Char) :
    natOfDigitsAux a (xs ++ ys) = natOfDigitsAux (natOfDigitsAux a xs) ys := by
  induction xs generalizing a with
  | nil => rfl
  | cons c cs ih =>
      rw [List.cons_append, natOfDigitsAux_cons, natOfDigitsAux_cons]
      exact ih _

theorem natOfDigitsAux_eq (a : Nat) (ds : List Char) :
    natOfDigitsAux a ds = a * 10 ^ ds.length + natOfDigitsAux 0 ds := by
  induction ds generalizing a with
  | nil => simp [natOfDigitsAux_nil]
  | cons c cs ih =>
      rw [natOfDigitsAux_cons, natOfDigitsAux_cons 0, List.length_cons]
      rw [ih (10 * a + digitVal c), ih (10 * 0 + digitVal c), Nat.pow_succ]
      ring

theorem natOfDigits_singleton (c : Char) : natOfDigits [c] = digitVal c := by
  show natOfDigitsAux 0 [c] = digitVal c
  rw [natOfDigitsAux_cons, natOfDigitsAux_nil]
  omega

theorem natOfDigits_append (xs ys : List Char) :
    natOfDigits (xs ++ ys) = natOfDigits xs * 10 ^ ys.length + natOfDigits ys := by
  show natOfDigitsAux 0 (xs ++ ys) = natOfDigitsAux 0 xs * 10 ^ ys.length + natOfDigitsAux 0 ys
  rw [natOfDigitsAux_append, natOfDigitsAux_eq]

theorem natOfDigits_natToDec (n : Nat) : natOfDigits (natToDec n) = n := by
  induction n using Nat.strong_induction_on with
  | _ n ih =>
      rw [natToDec_eq]
      by_cases h : n < 10
      · rw [if_pos h, natOfDigits_singleton, digitVal_decDigit h]
      · rw [if_neg h, natOfDigits_append,
          ih (n / 10) (Nat.div_lt_self (by omega) (by omega)),
          natOfDigits_singleton, digitVal_decDigit (Nat.mod_lt n (by omega))]
        simp [Nat.pow_one]
        omega

theorem natToDec_length_le (k : Nat) : ∀ n, n < 10 ^ (k + 1) → (natToDec n).length ≤ k + 1 := by
  induction k with
  | zero =>
      intro n h
      rw [natToDec_eq, if_pos (by simpa using h)]
      simp
  | succ k ih =>
      intro n h
      rw [natToDec_eq]
      by_cases h10 : n < 10
      · rw [if_pos h10]; simp
      · rw [if_neg h10, List.length_append]
        have hdiv : n / 10 < 10 ^ (k + 1) := by
          rw [Nat.div_lt_iff_lt_mul (by omega)]
          calc n < 10 ^ (k + 2) := h
            _ = 10 ^ (k + 1) * 10 := by ring
        have := ih (n / 10) hdiv
        simp only [List.length_singleton]
        omega

theorem pad2_length {m : Nat} (h : m < 100) : (pad2 m).length = 2 := by
  unfold pad2
  by_cases h10 : m < 10
  · rw [if_pos h10, List.length_cons]
    have : (natToDec m).length ≤ 1 := natToDec_length_le 0 m (by omega)
    have hne := natToDec_ne_nil m
    have : (natToDec m).length = 1 := by
      cases hl : (natToDec m).length with
      | zero => exact absurd (List.length_eq_zero.mp hl) hne
      | succ k => omega
    omega
  · rw [if_neg h10]
    rw [natToDec_eq, if_neg h10, List.length_append]
    have h1 : m / 10 < 10 := by omega
    rw [natToDec_eq, if_pos h1]
    rfl

theorem pad2_all_digits (m : Nat) : ∀ c ∈ pad2 m, isDigitChar c = true := by
  unfold pad2
  by_cases h10 : m < 10
  · rw [if_pos h10]
    intro c hc
    rcases List.mem_cons.mp hc with hc | hc
    · subst hc; decide
    · exact natToDec_all_digits m c hc
  · rw [if_neg h10]
    exact natToDec_all_digits m

theorem natOfDigits_pad2 (m : Nat) : natOfDigits (pad2 m) = m := by
  unfold pad2
  by_cases h10 : m < 10
  · rw [if_pos h10]
    show natOfDigitsAux (10 * 0 + digitVal '0') (natToDec m) = m
    have : digitVal '0' = 0 := by decide
    rw [this]
    exact natOfDigits_natToDec m
  · rw [if_neg h10]
    exact natOfDigits_natToDec m

theorem digit_not_special {c : Char} (h : isDigitChar c = true) :
    c ≠ '-' ∧ c ≠ '+' ∧ c ≠ '_' ∧ c ≠ '.' := by
  refine ⟨?_, ?_, ?_, ?_⟩ <;> rintro rfl <;> exact absurd h (by decide)

theorem takeWhile_all {p : Char → Bool} {xs : List Char}
    (h : ∀ c ∈ xs, p c = true) : xs.takeWhile p = xs := by
  induction xs with
  | nil => rfl
  | cons c cs ih =>
      rw [List.takeWhile_cons, h c (by simp), if_pos rfl]
      rw [ih (fun d hd => h d (by simp [hd]))]

theorem dropWhile_all {p : Char → Bool} {xs : List Char}
    (h : ∀ c ∈ xs, p c = true) : xs.dropWhile p = [] := by
  induction xs with
  | nil => rfl
  | cons c cs ih =>
      rw [List.dropWhile_cons, if_pos (h c (by simp))]
      exact ih (fun d hd => h d (by simp [hd]))

theorem takeWhile_append_stop {p : Char → Bool} {xs : List Char} {y : Char} (ys : List Char)
    (hxs : ∀ c ∈ xs, p c = true) (hy : p y = false) :
    (xs ++ y :: ys).takeWhile p = xs := by
  induction xs with
  | nil => simp [List.takeWhile_cons, hy]
  | cons c cs ih =>
      rw [List.cons_append, List.takeWhile_cons, hxs c (by simp), if_pos rfl]
      rw [ih (fun d hd => hxs d (by simp [hd]))]

theorem dropWhile_append_stop {p : Char → Bool} {xs : List Char} {y : Char} (ys : List Char)
    (hxs : ∀ c ∈ xs, p c = true) (hy : p y = false) :
    (xs ++ y :: ys).dropWhile p = y :: ys := by
  induction xs with
  | nil => simp [List.dropWhile_cons, hy]
  | cons c cs ih =>
      rw [List.cons_append, List.dropWhile_cons, if_pos (hxs c (by simp))]
      exact ih (fun d hd => hxs d (by simp [hd]))

theorem mem_dropWhile_of_not {p : Char → Bool} {l : List Char} {c : Char}
    (hc : c ∈ l) (hp : p c = false) : c ∈ l.dropWhile p := by
  induction l with
  | nil => cases hc
  | cons a l ih =>
      rw [List.dropWhile_cons]
      by_cases ha : p a = true
      · rw [if_pos ha]
        rcases List.mem_cons.mp hc with hc | hc
        · subst hc; rw [ha] at hp; cases hp
        · exact ih hc
      · rw [if_neg ha]; exact hc

theorem mem_pyStripList {l : List Char} {c : Char}
    (hc : c ∈ l) (hp : pyIsSpace c = false) : c ∈ pyStripList l := by
  unfold pyStripList
  rw [List.mem_reverse]
  exact mem_dropWhile_of_not (List.mem_reverse.mpr (mem_dropWhile_of_not hc hp)) hp

theorem filter_no_underscore {l : List Char} (h : ∀ c ∈ l, c ≠ '_') :
    l.filter (fun c => c ≠ '_') = l := by
  induction l with
  | nil => rfl
  | cons c cs ih =>
      rw [List.filter_cons, if_pos (by simpa using h c (by simp))]
      rw [ih (fun d hd => h d (by simp [hd]))]

theorem signSplit_other {c : Char} (cs : List Char) (h1 : c ≠ '-') (h2 : c ≠ '+') :
    signSplit (c :: cs) = (false, c :: cs) := by
  rw [signSplit, if_neg h1, if_neg h2]

theorem finTail_dropWhile_nil {sg : Bool} {cs : List Char}
    (h : cs.dropWhile isDigitChar = []) :
    finTail sg cs = finTail2 sg (cs.takeWhile isDigitChar) [] [] := by
  unfold finTail
  rw [h]

theorem finTail_dropWhile_dot {sg : Bool} {cs r : List Char}
    (h : cs.dropWhile isDigitChar = '.' :: r) :
    finTail sg cs
      = finTail2 sg (cs.takeWhile isDigitChar) (r.takeWhile isDigitChar)
          (r.dropWhile isDigitChar) := by
  unfold finTail
  rw [h]
  rfl

theorem finTail2_end {sg : Bool} {ip fp : List Char} (h : ip ++ fp ≠ []) :
    finTail2 sg ip fp [] = some (.fin sg (natOfDigits (ip ++ fp)) (-(fp.length : Int))) := by
  unfold finTail2
  rw [if_neg h]

theorem finTail_digits {sg : Bool} {ds : List Char}
    (hne : ds ≠ []) (hdig : ∀ c ∈ ds, isDigitChar c = true) :
    finTail sg ds = some (.fin sg (natOfDigits ds) 0) := by
  rw [finTail_dropWhile_nil (dropWhile_all hdig), takeWhile_all hdig,
    finTail2_end (by simpa using hne)]
  simp

theorem finTail_digits_dot {sg : Bool} {A B : List Char}
    (hA : A ≠ []) (hAd : ∀ c ∈ A, isDigitChar c = true)
    (hBd : ∀ c ∈ B, isDigitChar c = true) :
    finTail sg (A ++ '.' :: B) = some (.fin sg (natOfDigits (A ++ B)) (-(B.length : Int))) := by
  have hdotd : isDigitChar '.' = false := by decide
  rw [finTail_dropWhile_dot (dropWhile_append_stop B hAd hdotd),
    takeWhile_append_stop B hAd hdotd, takeWhile_all hBd, dropWhile_all hBd,
    finTail2_end (by simp [hA])]

theorem expTail_shape {sg : Bool} {c f : Nat} {r : List Char} {d : PyDecimal}
    (h : expTail sg c f r = some d) : ∃ s c' e, d = PyDecimal.fin s c' e := by
  simp only [expTail] at h
  split at h
  · cases h
  · split at h
    · cases h
    · exact ⟨_, _, _, (Option.some.inj h).symm⟩

theorem finTail2_shape {sg : Bool} {ip fp cs2 : List Char} {d : PyDecimal}
    (h : finTail2 sg ip fp cs2 = some d) : ∃ s c e, d = PyDecimal.fin s c e := by
  unfold finTail2 at h
  split at h
  · cases h
  · split at h
    · exact ⟨_, _, _, (Option.some.inj h).symm⟩
    · split at h
      · exact expTail_shape h
      · cases h

theorem finTail_shape {sg : Bool} {cs : List Char} {d : PyDecimal}
    (h : finTail sg cs = some d) : ∃ s c e, d = PyDecimal.fin s c e := by
  unfold finTail at h
  split at h
  · exact finTail2_shape h
  · exact finTail2_shape h

theorem dropLitCI_mem {lit cs rest : List Char} (h : dropLitCI lit cs = some rest) :
    ∀ c ∈ cs, c ∈ rest ∨ c.toLower ∈ lit := by
  induction lit generalizing cs with
  | nil =>
      cases cs with
      | nil => intro c hc; cases hc
      | cons a cs =>
          rw [dropLitCI] at h
          intro c hc
          exact Or.inl ((Option.some.inj h) ▸ hc)
  | cons p ps ih =>
      cases cs with
      | nil => cases h
      | cons a cs =>
          rw [dropLitCI] at h
          split at h
          · intro c hc
            rcases List.mem_cons.mp hc with hc | hc
            · subst hc
              right
              rename_i heq
              rw [heq]
              simp
            · rcases ih h c hc with h1 | h1
              · exact Or.inl h1
              · exact Or.inr (by simp [h1])
          · cases h

theorem nanTail_no_dot {sg sig : Bool} {cs1 : List Char} {d : PyDecimal}
    (h : nanTail sg sig cs1 = some d) : '.' ∉ cs1 := by
  intro hdot
  unfold nanTail at h
  split at h
  · rename_i rest hnan
    split at h
    · rename_i hall
      rcases dropLitCI_mem hnan '.' hdot with h1 | h1
      · have := List.all_eq_true.mp hall _ h1
        exact absurd this (by decide)
      · exact absurd h1 (by decide)
    · cases h
  · cases h

theorem specialTail_no_dot {sg : Bool} {cs : List Char} {d : PyDecimal}
    (h : specialTail sg cs = some d) : '.' ∉ cs := by
  intro hdot
  unfold specialTail at h
  split at h
  · rename_i rest hinf
    split at h
    · rename_i hrest
      subst hrest
      rcases dropLitCI_mem hinf '.' hdot with h1 | h1
      · cases h1
      · exact absurd h1 (by decide)
    · split at h
      · rename_i rest2 hinity
        rcases dropLitCI_mem hinf '.' hdot with h1 | h1
        · rcases dropLitCI_mem hinity '.' h1 with h2 | h2
          · cases h2
          · exact absurd h2 (by decide)
        · exact absurd h1 (by decide)
      · cases h
  · split at h
    · rename_i a r
      split at h
      · rename_i hs
        rcases List.mem_cons.mp hdot with h1 | h1
        · exact absurd (h1 ▸ hs) (by decide)
        · exact nanTail_no_dot h h1
      · exact nanTail_no_dot h hdot
    · exact absurd hdot (List.not_mem_nil _)

theorem natToDec_val_append_pad2 (n : Nat) :
    natOfDigits (natToDec (n / 100) ++ pad2 (n % 100)) = n := by
  rw [natOfDigits_append, natOfDigits_natToDec, pad2_length (Nat.mod_lt n (by omega)),
    natOfDigits_pad2]
  omega

/-! ### Parsing clean numeric strings -/

theorem parseSigned_of_finTail {cs : List Char} {d : PyDecimal}
    (h : finTail (signSplit cs).1 (signSplit cs).2 = some d) : parseSigned cs = some d := by
  unfold parseSigned
  rw [h]

theorem parseSigned_digits {sg : Bool} {ds : List Char}
    (hne : ds ≠ []) (hdig : ∀ c ∈ ds, isDigitChar c = true) :
    parseSigned ((if sg then ['-'] else []) ++ ds)
      = some (.fin sg (natOfDigits ds) 0) := by
  have hsplit : signSplit ((if sg then ['-'] else []) ++ ds) = (sg, ds) := by
    cases sg with
    | true => rfl
    | false =>
        cases ds with
        | nil => exact absurd rfl hne
        | cons c cs =>
            have hd := digit_not_special (hdig c (by simp))
            simpa using signSplit_other cs hd.1 hd.2.1
  apply parseSigned_of_finTail
  rw [hsplit]
  exact finTail_digits hne hdig

theorem parseSigned_digits_dot {sg : Bool} {A B : List Char}
    (hA : A ≠ []) (hAd : ∀ c ∈ A, isDigitChar c = true)
    (hBd : ∀ c ∈ B, isDigitChar c = true) :
    parseSigned ((if sg then ['-'] else []) ++ (A ++ '.' :: B))
      = some (.fin sg (natOfDigits (A ++ B)) (-(B.length : Int))) := by
  have hsplit : signSplit ((if sg then ['-'] else []) ++ (A ++ '.' :: B))
      = (sg, A ++ '.' :: B) := by
    cases sg with
    | true => rfl
    | false =>
        cases A with
        | nil => exact absurd rfl hA
        | cons c cs =>
            have hd := digit_not_special (hAd c (by simp))
            simpa using signSplit_other (cs ++ '.' :: B) hd.1 hd.2.1
  apply parseSigned_of_finTail
  rw [hsplit]
  exact finTail_digits_dot hA hAd hBd

theorem string_mk_data (s : String) : String.mk s.data = s := by
  cases s
  rfl

theorem string_data_append (a b : String) : (a ++ b).data = a.data ++ b.data := by
  cases a
  cases b
  rfl

theorem string_ne_empty_iff_data {s : String} : s ≠ "" ↔ s.data ≠ [] := by
  constructor
  · intro h hl
    apply h
    cases s
    subst hl
    rfl
  · intro h hs
    exact h (by subst hs; rfl)

theorem pyDecimalOfString_clean {s : String}
    (h1 : ∀ c ∈ s.data, pyIsSpace c = false) (h2 : ∀ c ∈ s.data, c ≠ '_') :
    pyDecimalOfString s = parseSigned s.data := by
  unfold pyDecimalOfString
  rw [pyStripList_of_no_space h1, filter_no_underscore h2]

theorem renderFixed2_data (sg : Bool) (n : Nat) :
    (renderFixed2 sg n).data
      = (if sg then ['-'] else []) ++ natToDec (n / 100) ++ '.' :: pad2 (n % 100) := rfl

theorem renderFixed2_char_class (sg : Bool) (n : Nat) :
    ∀ c ∈ (renderFixed2 sg n).data, isDigitChar c = true ∨ c = '-' ∨ c = '.' := by
  intro c hc
  rw [renderFixed2_data] at hc
  rcases List.mem_append.mp hc with hc | hc
  · rcases List.mem_append.mp hc with hc | hc
    · cases sg with
      | true =>
          right; left
          simpa using hc
      | false => cases hc
    · exact Or.inl (natToDec_all_digits _ c hc)
  · rcases List.mem_cons.mp hc with hc | hc
    · exact Or.inr (Or.inr hc)
    · exact Or.inl (pad2_all_digits _ c hc)

theorem parse_renderFixed2 (sg : Bool) (n : Nat) :
    pyDecimalOfString (renderFixed2 sg n) = some (.fin sg n (-2)) := by
  have hclass := renderFixed2_char_class sg n
  rw [pyDecimalOfString_clean
    (fun c hc => by
      rcases hclass c hc with h | h | h
      · exact digit_not_space h
      · subst h; decide
      · subst h; decide)
    (fun c hc => by
      rcases hclass c hc with h | h | h
      · exact (digit_not_special h).2.2.1
      · subst h; decide
      · subst h; decide)]
  rw [renderFixed2_data]
  have hkey := @parseSigned_digits_dot sg (natToDec (n / 100)) (pad2 (n % 100))
    (natToDec_ne_nil _) (fun c hc => natToDec_all_digits _ c hc)
    (fun c hc => pad2_all_digits _ c hc)
  rw [List.append_assoc, hkey, natToDec_val_append_pad2,
    pad2_length (Nat.mod_lt n (by omega))]
  norm_num

/-! ### Formatting and division lemmas -/

theorem format2f_fin_neg2 (sg : Bool) (n : Nat) :
    format2f (.fin sg n (-2)) = renderFixed2 sg n := by
  unfold format2f
  norm_num

theorem exactCents_eq_renderFixed2 (sg : Bool) (n : Nat) :
    exactCents sg n = renderFixed2 sg n := rfl

theorem numDigits_le_of_lt {c k : Nat} (h : c < 10 ^ (k + 1)) : numDigits c ≤ k + 1 :=
  natToDec_length_le k c h

theorem divide100_small {s : Bool} {c : Nat} (h : c < 10 ^ prec) :
    divide100 (.fin s c 0) = .ok (.fin s c (-2)) := by
  have hnd : numDigits c ≤ 28 := @numDigits_le_of_lt c 27 (by simpa [prec] using h)
  simp only [divide100, divide100fin, if_pos h]
  rw [if_neg]
  · norm_num
  · rintro ⟨-, h2⟩
    unfold Emax at h2
    omega

theorem contains_of_mem {l : List Char} {c : Char} (h : c ∈ l) : l.contains c = true := by
  induction l with
  | nil => cases h
  | cons a l ih =>
      rcases List.mem_cons.mp h with h | h
      · subst h; simp [List.contains_cons]
      · rw [List.contains_cons, ih h, Bool.or_true]

theorem mem_of_contains {l : List Char} {c : Char} (h : l.contains c = true) : c ∈ l := by
  induction l with
  | nil => cases h
  | cons a l ih =>
      rw [List.contains_cons, Bool.or_eq_true] at h
      rcases h with h | h
      · rw [beq_iff_eq] at h
        exact h ▸ List.mem_cons_self a l
      · exact List.mem_cons_of_mem a (ih h)

theorem containsDot_renderFixed2 (sg : Bool) (n : Nat) :
    containsDot (renderFixed2 sg n) = true := by
  apply contains_of_mem
  rw [renderFixed2_data]
  simp

theorem normalize_amount_dot {amt : String} {d : PyDecimal}
    (hdot : containsDot amt = true) (hp : pyDecimalOfString amt = some d) :
    normalize_amount amt = .ok (format2f d) := by
  unfold normalize_amount
  rw [hdot, hp]
  rfl

theorem normalize_amount_nodot {amt : String} {d : PyDecimal}
    (hdot : containsDot amt = false) (hp : pyDecimalOfString amt = some d) :
    normalize_amount amt = (divide100 d).map format2f := by
  unfold normalize_amount
  rw [hdot, hp]
  rfl

theorem normalize_amount_none {amt : String} (hp : pyDecimalOfString amt = none) :
    normalize_amount amt = .error .invalidOperation := by
  unfold normalize_amount
  rw [hp]
  cases h : containsDot amt <;> simp [h]

/-! ### Decoder dispatch lemmas -/

theorem lookup_amount_zip (parts : List String) :
    (List.lookup "amount"
      (TXN_FIELDS.zip
        ((parts ++ List.replicate (TXN_FIELDS.length - parts.length) "").take
          TXN_FIELDS.length))).getD ""
      = parts.getD 2 "" := by
  rcases parts with _ | ⟨a, _ | ⟨b, _ | ⟨c, rest⟩⟩⟩ <;> rfl

theorem decode16_eq (parts : List String) :
    decode16 parts
      = match normalize_amount (parts.getD 2 "") with
        | .error e => .error e
        | .ok a =>
            .ok (some (setField
              (TXN_FIELDS.zip
                ((parts ++ List.replicate (TXN_FIELDS.length - parts.length) "").take
                  TXN_FIELDS.length)) "amount" a)) := by
  simp only [decode16]
  rw [lookup_amount_zip]

theorem decodeParts_01 {parts : List String} (h : parts.headD "" = "01") :
    decodeParts parts = .ok (some (HDR_FIELDS.zip (parts.take HDR_FIELDS.length))) := by
  simp only [decodeParts]
  rw [h, if_pos rfl]

theorem decodeParts_02 {parts : List String} (h : parts.headD "" = "02") :
    decodeParts parts = .ok (some (GRP_FIELDS.zip (parts.take GRP_FIELDS.length))) := by
  simp only [decodeParts]
  rw [h, if_neg (by decide), if_pos rfl]

theorem decodeParts_03 {parts : List String} (h : parts.headD "" = "03") :
    decodeParts parts = .ok (some (ACC_FIELDS.zip (parts.take ACC_FIELDS.length))) := by
  simp only [decodeParts]
  rw [h, if_neg (by decide), if_neg (by decide), if_pos rfl]

theorem decodeParts_16 {parts : List String} (h : parts.headD "" = "16") :
    decodeParts parts = decode16 parts := by
  simp only [decodeParts]
  rw [h, if_neg (by decide), if_neg (by decide), if_neg (by decide), if_pos rfl]

theorem decodeParts_other {parts : List String}
    (h1 : parts.headD "" ≠ "01") (h2 : parts.headD "" ≠ "02")
    (h3 : parts.headD "" ≠ "03") (h4 : parts.headD "" ≠ "16") :
    decodeParts parts = .ok none := by
  simp only [decodeParts]
  rw [if_neg h1, if_neg h2, if_neg h3, if_neg h4]

theorem processLine_empty {raw : String} (h : pyStrip raw = "") :
    processLine raw = .ok none := by
  simp only [processLine]
  rw [if_pos h]

theorem processLine_eq {raw : String} (h : pyStrip raw ≠ "") :
    processLine raw
      = decodeParts (pySplitComma
          (if pyEndsWithSlash (pyStrip raw) then dropLastChar (pyStrip raw)
           else pyStrip raw)) := by
  simp only [processLine]
  rw [if_neg h]

/-! ### Terminator-stripping lemmas -/

theorem length_dropWhile_le (p : Char → Bool) (l : List Char) :
    (l.dropWhile p).length ≤ l.length := by
  induction l with
  | nil => exact Nat.le_refl 0
  | cons a l ih =>
      rw [List.dropWhile_cons]
      by_cases h : p a = true
      · rw [if_pos h]
        exact Nat.le_succ_of_le ih
      · rw [if_neg h]

theorem length_pyStripList_le (l : List Char) : (pyStripList l).length ≤ l.length := by
  unfold pyStripList
  rw [List.length_reverse]
  calc ((l.dropWhile pyIsSpace).reverse.dropWhile pyIsSpace).length
      ≤ (l.dropWhile pyIsSpace).reverse.length := length_dropWhile_le _ _
    _ = (l.dropWhile pyIsSpace).length := List.length_reverse _
    _ ≤ l.length := length_dropWhile_le _ _

theorem head_not_space_of_stripped {c : Char} {cs : List Char}
    (h : pyStripList (c :: cs) = c :: cs) : pyIsSpace c = false := by
  by_contra hc
  rw [Bool.not_eq_false] at hc
  have h1 : pyStripList (c :: cs) = pyStripList cs := by
    unfold pyStripList
    rw [List.dropWhile_cons, if_pos hc]
  have h2 := length_pyStripList_le cs
  rw [h1] at h
  have := congrArg List.length h
  simp only [List.length_cons] at this
  omega

theorem pyStripList_append_slash {l : List Char}
    (hl : pyStripList l = l) (hne : l ≠ []) :
    pyStripList (l ++ ['/']) = l ++ ['/'] := by
  cases l with
  | nil => exact absurd rfl hne
  | cons c cs =>
      have hc : pyIsSpace c = false := head_not_space_of_stripped hl
      unfold pyStripList
      rw [List.cons_append, List.dropWhile_cons, if_neg (by simp [hc]), ← List.cons_append,
        List.reverse_append]
      have hslash : pyIsSpace '/' = false := by decide
      simp only [List.reverse_cons, List.reverse_nil, List.nil_append, List.singleton_append,
        List.dropWhile_cons, hslash]
      rw [if_neg (by simp)]
      simp

theorem pyStrip_append_slash {t : String} (ht : pyStrip t = t) (hne : t ≠ "") :
    pyStrip (t ++ "/") = t ++ "/" := by
  have hdata : (t ++ "/").data = t.data ++ ['/'] := string_data_append t "/"
  have htd : pyStripList t.data = t.data := by
    have := congrArg String.data ht
    simpa [pyStrip] using this
  unfold pyStrip
  rw [hdata, pyStripList_append_slash htd (string_ne_empty_iff_data.mp hne), ← hdata,
    string_mk_data]

theorem pyEndsWithSlash_append (t : String) : pyEndsWithSlash (t ++ "/") = true := by
  unfold pyEndsWithSlash
  rw [string_data_append]
  simp

theorem dropLastChar_append (t : String) : dropLastChar (t ++ "/") = t := by
  unfold dropLastChar
  rw [string_data_append]
  show String.mk (t.data ++ ['/']).dropLast = t
  rw [List.dropLast_concat, string_mk_data]

/-! ### Finite-value classification of dotted amounts -/

theorem dot_mem_signSplit_snd {cs : List Char} (h : '.' ∈ cs) : '.' ∈ (signSplit cs).2 := by
  cases cs with
  | nil => cases h
  | cons a r =>
      show '.' ∈ (if a = '-' then (true, r)
        else if a = '+' then (false, r) else (false, a :: r)).2
      by_cases h1 : a = '-'
      · rw [if_pos h1]
        rcases List.mem_cons.mp h with hc | hc
        · exact absurd (hc.trans h1) (by decide)
        · exact hc
      · rw [if_neg h1]
        by_cases h2 : a = '+'
        · rw [if_pos h2]
          rcases List.mem_cons.mp h with hc | hc
          · exact absurd (hc.trans h2) (by decide)
          · exact hc
        · rw [if_neg h2]
          exact h

theorem parse_dot_fin {amt : String} {d : PyDecimal}
    (hdot : containsDot amt = true) (hp : pyDecimalOfString amt = some d) :
    ∃ s c e, d = PyDecimal.fin s c e := by
  have hmem : '.' ∈ amt.data := mem_of_contains hdot
  have hmem2 : '.' ∈ (pyStripList amt.data).filter (fun c => c ≠ '_') := by
    apply List.mem_filter.mpr
    exact ⟨mem_pyStripList hmem (by decide), by decide⟩
  unfold pyDecimalOfString at hp
  unfold parseSigned at hp
  split at hp
  · rename_i d' hfin
    exact (Option.some.inj hp) ▸ finTail_shape hfin
  · exact absurd (dot_mem_signSplit_snd hmem2) (specialTail_no_dot hp)

theorem divide100_fin_ok {s : Bool} {c : Nat} {e : Int} {x : PyDecimal}
    (h : divide100 (.fin s c e) = .ok x) : ∃ s' c' e', x = PyDecimal.fin s' c' e' := by
  replace h : (if 0 < (divide100fin c e).1
        ∧ Emax < (divide100fin c e).2 + (numDigits (divide100fin c e).1 : Int) - 1
      then (Except.error PyExc.overflow : Except PyExc PyDecimal)
      else .ok (.fin s (divide100fin c e).1 (divide100fin c e).2)) = .ok x := h
  split at h
  · cases h
  · exact ⟨_, _, _, (Except.ok.inj h).symm⟩

/-! ### Shape of the rendered amount -/

theorem stripMinus_of_head_ne {c : Char} {r : List Char} (h : c ≠ '-') :
    stripMinus (c :: r) = c :: r := by
  unfold stripMinus
  split
  · rename_i heq
    cases heq
    exact absurd rfl h
  · rfl

theorem pad2_two_digits (m : Nat) (hm : m < 100) :
    ∃ b1 b2, pad2 m = [b1, b2] ∧ isDigitChar b1 = true ∧ isDigitChar b2 = true := by
  have hlen := pad2_length hm
  rcases hp : pad2 m with _ | ⟨b1, _ | ⟨b2, rest⟩⟩
  · rw [hp] at hlen; cases hlen
  · rw [hp] at hlen; cases hlen
  · rw [hp] at hlen
    simp only [List.length_cons] at hlen
    have hrest : rest = [] := List.length_eq_zero.mp (by omega)
    subst hrest
    exact ⟨b1, b2, rfl, pad2_all_digits _ b1 (by rw [hp]; simp),
      pad2_all_digits _ b2 (by rw [hp]; simp)⟩

theorem isTwoFracDecimal_renderFixed2 (sg : Bool) (n : Nat) :
    isTwoFracDecimal (renderFixed2 sg n) = true := by
  obtain ⟨b1, b2, hp2, hb1, hb2⟩ := pad2_two_digits (n % 100) (Nat.mod_lt n (by omega))
  have hA := natToDec_all_digits (n / 100)
  have hAne := natToDec_ne_nil (n / 100)
  unfold isTwoFracDecimal
  rw [renderFixed2_data, hp2]
  have hstrip : stripMinus
      ((if sg then ['-'] else []) ++ natToDec (n / 100) ++ '.' :: [b1, b2])
      = natToDec (n / 100) ++ '.' :: [b1, b2] := by
    cases sg with
    | true =>
        rw [if_pos rfl, List.singleton_append]
        rfl
    | false =>
        rw [if_neg (by simp), List.nil_append]
        cases hc : natToDec (n / 100) with
        | nil => exact absurd hc hAne
        | cons a r =>
            have ha : isDigitChar a = true := hA a (by rw [hc]; simp)
            rw [List.cons_append]
            exact stripMinus_of_head_ne (digit_not_special ha).1
  rw [hstrip]
  rw [show (natToDec (n / 100) ++ '.' :: [b1, b2]).reverse
      = b2 :: b1 :: '.' :: (natToDec (n / 100)).reverse by simp]
  show (isDigitChar b2 && isDigitChar b1
    && decide ((natToDec (n / 100)).reverse ≠ [])
    && (natToDec (n / 100)).reverse.all isDigitChar) = true
  rw [hb1, hb2]
  have h1 : decide ((natToDec (n / 100)).reverse ≠ []) = true := by
    simp [hAne]
  rw [h1]
  have h2 : (natToDec (n / 100)).reverse.all isDigitChar = true := by
    rw [List.all_eq_true]
    intro c hc
    exact hA c (List.mem_reverse.mp hc)
  rw [h2]
  rfl

/-! ### Integer-numeral amounts -/

theorem signSplit_cons (a : Char) (r : List Char) :
    signSplit (a :: r)
      = if a = '-' then (true, r)
        else if a = '+' then (false, r) else (false, a :: r) := rfl

theorem signSplit_inv (cs : List Char) :
    cs = (signSplit cs).2
      ∨ ∃ c0, (c0 = '-' ∨ c0 = '+') ∧ cs = c0 :: (signSplit cs).2 := by
  cases cs with
  | nil => exact Or.inl rfl
  | cons a r =>
      rw [signSplit_cons]
      by_cases h1 : a = '-'
      · rw [if_pos h1]
        exact Or.inr ⟨a, Or.inl h1, rfl⟩
      · rw [if_neg h1]
        by_cases h2 : a = '+'
        · rw [if_pos h2]
          exact Or.inr ⟨a, Or.inr h2, rfl⟩
        · rw [if_neg h2]
          exact Or.inl rfl

theorem parseSigned_signSplit_digits {cs ds : List Char} {sg : Bool}
    (hsp : signSplit cs = (sg, ds)) (hne : ds ≠ [])
    (hdig : ∀ c ∈ ds, isDigitChar c = true) :
    parseSigned cs = some (.fin sg (natOfDigits ds) 0) := by
  apply parseSigned_of_finTail
  rw [hsp]
  exact finTail_digits hne hdig

theorem decomposeIntNumeral_inv {s : String} {sg : Bool} {n : Nat}
    (h : decomposeIntNumeral s = some (sg, n)) :
    (signSplit s.data).1 = sg ∧ (signSplit s.data).2 ≠ []
      ∧ (∀ c ∈ (signSplit s.data).2, isDigitChar c = true)
      ∧ n = natOfDigits (signSplit s.data).2 := by
  replace h : (if (signSplit s.data).2 ≠ [] ∧ (signSplit s.data).2.all isDigitChar = true
      then some ((signSplit s.data).1, natOfDigits (signSplit s.data).2)
      else none) = some (sg, n) := h
  split at h
  · rename_i hcond
    have h1 := (Option.some.inj h)
    refine ⟨congrArg Prod.fst h1, hcond.1, ?_, (congrArg Prod.snd h1).symm⟩
    intro c hc
    exact List.all_eq_true.mp hcond.2 c hc
  · cases h

theorem divide100_fin_error {s : Bool} {c : Nat} {e : Int} {err : PyExc}
    (h : divide100 (.fin s c e) = .error err) : err = .overflow := by
  replace h : (if 0 < (divide100fin c e).1
        ∧ Emax < (divide100fin c e).2 + (numDigits (divide100fin c e).1 : Int) - 1
      then (Except.error PyExc.overflow : Except PyExc PyDecimal)
      else .ok (.fin s (divide100fin c e).1 (divide100fin c e).2)) = .error err := h
  split at h
  · exact (Except.error.inj h).symm
  · cases h

/-! ### Decode-failure characterization -/

theorem normalize_error_classify {amt : String} {err : PyExc}
    (h : normalize_amount amt = .error err) :
    pyDecimalOfString amt = none
      ∨ (∃ sg p, pyDecimalOfString amt = some (.nan sg true p))
      ∨ err = .overflow := by
  cases hp : pyDecimalOfString amt with
  | none => exact Or.inl rfl
  | some d =>
      cases hdot : containsDot amt with
      | true =>
          rw [normalize_amount_dot hdot hp] at h
          cases h
      | false =>
          rw [normalize_amount_nodot hdot hp] at h
          cases d with
          | fin s c e =>
              cases hd : divide100 (.fin s c e) with
              | ok x =>
                  rw [hd] at h
                  replace h : (Except.ok (format2f x) : Except PyExc String)
                      = .error err := h
                  cases h
              | error e2 =>
                  rw [hd] at h
                  replace h : (Except.error e2 : Except PyExc String) = .error err := h
                  have he : e2 = err := Except.error.inj h
                  exact Or.inr (Or.inr (he ▸ divide100_fin_error hd))
          | inf s =>
              replace h : (Except.ok (format2f (PyDecimal.inf s)) : Except PyExc String)
                  = .error err := h
              cases h
          | nan sg sig p =>
              cases sig with
              | true => exact Or.inr (Or.inl ⟨sg, p, rfl⟩)
              | false =>
                  replace h : (Except.ok (format2f (PyDecimal.nan sg false (clampPayload p)))
                      : Except PyExc String) = .error err := h
                  cases h

theorem parse_nan_no_dot {amt : String} {sg sig : Bool} {p : List Char}
    (hp : pyDecimalOfString amt = some (.nan sg sig p)) : containsDot amt = false := by
  cases hdot : containsDot amt with
  | false => rfl
  | true =>
      obtain ⟨s, c, e, habs⟩ := parse_dot_fin hdot hp
      exact PyDecimal.noConfusion habs

theorem normalize_error_iff (amt : String) (err : PyExc) :
    normalize_amount amt = .error err
      ↔ (pyDecimalOfString amt = none ∧ err = .invalidOperation)
        ∨ (∃ sg p, pyDecimalOfString amt = some (.nan sg true p) ∧ err = .invalidOperation)
        ∨ (∃ s c e, pyDecimalOfString amt = some (.fin s c e) ∧ containsDot amt = false
            ∧ divide100 (.fin s c e) = .error err) := by
  constructor
  · intro h
    cases hp : pyDecimalOfString amt with
    | none =>
        rw [normalize_amount_none hp] at h
        exact Or.inl ⟨rfl, (Except.error.inj h).symm⟩
    | some d =>
        cases hdot : containsDot amt with
        | true =>
            rw [normalize_amount_dot hdot hp] at h
            cases h
        | false =>
            rw [normalize_amount_nodot hdot hp] at h
            cases d with
            | fin s c e =>
                cases hd : divide100 (.fin s c e) with
                | ok x =>
                    rw [hd] at h
                    replace h : (Except.ok (format2f x) : Except PyExc String)
                        = .error err := h
                    cases h
                | error e2 =>
                    rw [hd] at h
                    replace h : (Except.error e2 : Except PyExc String) = .error err := h
                    have he : e2 = err := Except.error.inj h
                    exact Or.inr (Or.inr ⟨s, c, e, rfl, rfl, he ▸ hd⟩)
            | inf s =>
                replace h : (Except.ok (format2f (PyDecimal.inf s)) : Except PyExc String)
                    = .error err := h
                cases h
            | nan sg sig p =>
                cases sig with
                | true =>
                    replace h : (Except.error PyExc.invalidOperation
                        : Except PyExc String) = .error err := h
                    exact Or.inr (Or.inl ⟨sg, p, rfl, (Except.error.inj h).symm⟩)
                | false =>
                    replace h : (Except.ok (format2f
                        (PyDecimal.nan sg false (clampPayload p)))
                        : Except PyExc String) = .error err := h
                    cases h
  · rintro (⟨hnone, rfl⟩ | ⟨sg, p, hp, rfl⟩ | ⟨s, c, e, hp, hdot, hd⟩)
    · exact normalize_amount_none hnone
    · rw [normalize_amount_nodot (parse_nan_no_dot hp) hp]
      rfl
    · rw [normalize_amount_nodot hdot hp, hd]
      rfl

theorem decodeParts_error_iff (parts : List String) (err : PyExc) :
    decodeParts parts = .error err
      ↔ parts.headD "" = "16" ∧ normalize_amount (rawAmountOf parts) = .error err := by
  constructor
  · intro h
    by_cases h01 : parts.headD "" = "01"
    · rw [decodeParts_01 h01] at h; cases h
    by_cases h02 : parts.headD "" = "02"
    · rw [decodeParts_02 h02] at h; cases h
    by_cases h03 : parts.headD "" = "03"
    · rw [decodeParts_03 h03] at h; cases h
    by_cases h16 : parts.headD "" = "16"
    · refine ⟨h16, ?_⟩
      rw [decodeParts_16 h16, decode16_eq] at h
      cases hn : normalize_amount (parts.getD 2 "") with
      | error e =>
          rw [hn] at h
          have : e = err := Except.error.inj h
          show normalize_amount (parts.getD 2 "") = .error err
          rw [hn, this]
      | ok a => rw [hn] at h; cases h
    · rw [decodeParts_other h01 h02 h03 h16] at h; cases h
  · rintro ⟨h16, hn⟩
    rw [decodeParts_16 h16, decode16_eq]
    have hn' : normalize_amount (parts.getD 2 "") = .error err := hn
    rw [hn']

theorem parse_bai2_cons_error {l : String} {ls : List String} {err : PyExc}
    (h : processLine l = .error err) : parse_bai2 (l :: ls) = .error err := by
  unfold parse_bai2
  rw [h]

theorem parse_bai2_cons_skip {l : String} {ls : List String}
    (h : processLine l = .ok none) : parse_bai2 (l :: ls) = parse_bai2 ls := by
  conv_lhs => rw [parse_bai2]
  rw [h]

theorem parse_bai2_cons_rec {l : String} {ls : List String} {r : Record}
    (h : processLine l = .ok (some r)) :
    parse_bai2 (l :: ls) = (parse_bai2 ls).map (r :: ·) := by
  conv_lhs => rw [parse_bai2]
  rw [h]

/-! ### Converter aggregation -/

theorem convert_ok {lines : List String} {recs : List Record}
    (h : parse_bai2 lines = .ok recs) :
    convert lines
      = .ok (write_csv (recs.filter (fun r => recordCode r = "01")) HDR_FIELDS,
          write_csv (recs.filter (fun r => recordCode r = "03")) ACC_FIELDS,
          write_csv (recs.filter (fun r => recordCode r = "16")) TXN_FIELDS) := by
  unfold convert
  rw [h]

theorem csvRow_length (cols : List String) (r : Record) :
    (csvRow cols r).length = cols.length := List.length_map _ _

theorem csvRow_getD (cols : List String) (r : Record) :
    ∀ i, i < cols.length →
      (csvRow cols r).getD i "?" = (List.lookup (cols.getD i "") r).getD "" := by
  unfold csvRow
  induction cols with
  | nil => intro i hi; cases hi
  | cons c cols ih =>
      intro i hi
      cases i with
      | zero => rfl
      | succ i =>
          show ((cols.map fun k => (List.lookup k r).getD "").getD i "?")
            = (List.lookup (cols.getD i "") r).getD ""
          exact ih i (by simpa using hi)

/-! ### Field presence and padding -/

theorem exists_seven_cons (l : List String) (h : 7 ≤ l.length) :
    ∃ a b c d e f g t, l = a :: b :: c :: d :: e :: f :: g :: t := by
  rcases l with _ | ⟨a, _ | ⟨b, _ | ⟨c, _ | ⟨d, _ | ⟨e, _ | ⟨f, _ | ⟨g, t⟩⟩⟩⟩⟩⟩⟩ <;>
    simp only [List.length_nil, List.length_cons] at h
  · omega
  · omega
  · omega
  · omega
  · omega
  · omega
  · omega
  · exact ⟨a, b, c, d, e, f, g, t, rfl⟩

theorem padded_length (parts : List String) :
    7 ≤ (parts ++ List.replicate (TXN_FIELDS.length - parts.length) "").length := by
  rw [List.length_append, List.length_replicate]
  show 7 ≤ parts.length + (7 - parts.length)
  omega

theorem lookup_txn_zip_getD (parts : List String) :
    ∀ j < TXN_FIELDS.length,
      List.lookup (TXN_FIELDS.getD j "")
        (TXN_FIELDS.zip
          ((parts ++ List.replicate (TXN_FIELDS.length - parts.length) "").take
            TXN_FIELDS.length))
        = some ((parts ++ List.replicate (TXN_FIELDS.length - parts.length) "").getD j "") := by
  intro j hj
  obtain ⟨a, b, c, d, e, f, g, t, hq⟩ :=
    exists_seven_cons _ (padded_length parts)
  rw [hq]
  have hj7 : j < 7 := hj
  interval_cases j <;> rfl

theorem getD_append_ge (xs ys : List String) (d : String) :
    ∀ j, xs.length ≤ j → (xs ++ ys).getD j d = ys.getD (j - xs.length) d := by
  induction xs with
  | nil => intro j _; simp
  | cons x xs ih =>
      intro j hj
      cases j with
      | zero => simp at hj
      | succ j =>
          rw [List.cons_append]
          show (xs ++ ys).getD j d = ys.getD (j + 1 - (xs.length + 1)) d
          rw [ih j (by simpa using hj)]
          congr 1
          omega

theorem getD_replicate_empty (k : Nat) : ∀ i, (List.replicate k ("" : String)).getD i "" = "" := by
  induction k with
  | zero => intro i; cases i <;> rfl
  | succ k ih =>
      intro i
      cases i with
      | zero => rfl
      | succ i => exact ih i

theorem padded_getD_empty (parts : List String) {j : Nat} (hj : parts.length ≤ j) :
    (parts ++ List.replicate (TXN_FIELDS.length - parts.length) "").getD j "" = "" := by
  rw [getD_append_ge parts _ "" j hj, getD_replicate_empty]

theorem lookup_isSome_of_mem_keys {r : Record} {f : String}
    (h : f ∈ r.map Prod.fst) : (List.lookup f r).isSome = true := by
  induction r with
  | nil => cases h
  | cons kv r ih =>
      rw [List.map_cons] at h
      rw [List.lookup]
      by_cases hf : f = kv.1
      · rw [show (f == kv.1) = true by simp [hf]]
        rfl
      · rw [show (f == kv.1) = false by simp [hf]]
        rcases List.mem_cons.mp h with h | h
        · exact absurd h hf
        · exact ih h

theorem decode16_ok_inv {parts : List String} {r : Record}
    (h : decode16 parts = .ok (some r)) :
    ∃ a, normalize_amount (parts.getD 2 "") = .ok a
      ∧ r = setField
          (TXN_FIELDS.zip
            ((parts ++ List.replicate (TXN_FIELDS.length - parts.length) "").take
              TXN_FIELDS.length)) "amount" a := by
  rw [decode16_eq] at h
  cases hn : normalize_amount (parts.getD 2 "") with
  | error e => rw [hn] at h; cases h
  | ok a =>
      rw [hn] at h
      exact ⟨a, rfl, (Option.some.inj (Except.ok.inj h)).symm⟩

theorem getD_of_length_le (l : List String) (d : String) :
    ∀ n, l.length ≤ n → l.getD n d = d := by
  induction l with
  | nil => intro n _; cases n <;> rfl
  | cons x xs ih =>
      intro n hn
      cases n with
      | zero => simp at hn
      | succ n => exact ih n (by simpa using hn)

theorem take_min (F : List String) (n : Nat) : F.take (min F.length n) = F.take n := by
  by_cases h : n ≤ F.length
  · rw [Nat.min_eq_right h]
  · rw [Nat.min_eq_left (by omega), List.take_length,
      List.take_of_length_le (by omega)]

theorem format2f_fin_exists (s : Bool) (c : Nat) (e : Int) :
    ∃ n, format2f (.fin s c e) = renderFixed2 s n := ⟨_, rfl⟩

theorem processLine_pyStrip (raw : String) :
    processLine (pyStrip raw) = processLine raw := by
  simp only [processLine, pyStrip_idem]

theorem lineCode_eq (raw : String) :
    lineCode raw
      = (pySplitComma (if pyEndsWithSlash (pyStrip raw) then dropLastChar (pyStrip raw)
          else pyStrip raw)).headD "" := rfl

theorem decode16_keys {parts : List String} {r : Record}
    (h : decode16 parts = .ok (some r)) : r.map Prod.fst = TXN_FIELDS := by
  obtain ⟨a, -, hr⟩ := decode16_ok_inv h
  rw [hr, setField_keys, map_fst_zip_take, List.length_take]
  have h7 : TXN_FIELDS.length
      ⊓ (parts ++ List.replicate (TXN_FIELDS.length - parts.length) "").length
      = TXN_FIELDS.length :=
    Nat.min_eq_left (padded_length parts)
  rw [h7, List.take_length]

/-! ### Claim theorems -/

/-- C5: every physical line is first trimmed of leading and trailing
whitespace; a line that is empty after trimming is skipped with no record
and no error; a trimmed line ending in the terminator "/" has exactly that
one character stripped before comma splitting, and a line without the
terminator is processed identically. -/
theorem line_reconstruction :
    (∀ raw : String, processLine raw = processLine (pyStrip raw))
    ∧ (∀ raw : String, pyStrip raw = "" → processLine raw = .ok none)
    ∧ (∀ t : String, pyStrip t = t → t ≠ "" → pyEndsWithSlash t = false →
        processLine (t ++ "/") = decodeParts (pySplitComma t)
        ∧ processLine t = decodeParts (pySplitComma t)) := by
  refine ⟨?_, ?_, ?_⟩
  · intro raw
    exact (processLine_pyStrip raw).symm
  · intro raw h
    exact processLine_empty h
  · intro t ht hne hslash
    constructor
    · have h1 : pyStrip (t ++ "/") = t ++ "/" := pyStrip_append_slash ht hne
      have h2 : (t ++ "/") ≠ "" := by
        rw [string_ne_empty_iff_data, string_data_append]
        simp
      rw [processLine_eq (by rw [h1]; exact h2), h1, pyEndsWithSlash_append,
        if_pos rfl, dropLastChar_append]
    · rw [processLine_eq (by rw [ht]; exact hne), ht, hslash, if_neg (by simp)]

/-- C5 witness: the parts of `line_reconstruction` applied at concrete
lines. -/
theorem line_reconstruction_witness :
    processLine "   " = .ok none
    ∧ processLine "16,409,5,,,,/" = decodeParts (pySplitComma "16,409,5,,,,")
    ∧ processLine " 01,A " = processLine (pyStrip " 01,A ") := by
  refine ⟨line_reconstruction.2.1 "   " (by decide),
    (line_reconstruction.2.2 "16,409,5,,,," (by decide) (by decide) (by decide)).1,
    line_reconstruction.1 " 01,A "⟩

/-- C6: a non-empty line whose record code is none of "01", "02", "03",
"16" yields no record and no error: the parser consumes it and moves on. -/
theorem unrecognized_code_skipped :
    ∀ raw : String, pyStrip raw ≠ "" →
      lineCode raw ∉ (["01", "02", "03", "16"] : List String) →
      processLine raw = .ok none := by
  intro raw hne hcode
  rw [lineCode_eq] at hcode
  simp only [List.mem_cons, List.mem_singleton, not_or] at hcode
  rw [processLine_eq hne]
  exact decodeParts_other hcode.1 hcode.2.1 hcode.2.2.1 hcode.2.2.2.1

/-- C6 witness: `unrecognized_code_skipped` applied to a "99" line. -/
theorem unrecognized_code_skipped_witness :
    processLine "99,some,data/" = .ok none :=
  unrecognized_code_skipped "99,some,data/" (by decide) (by decide)

/-- C10: the amount branch accepts every string the decimal parser
accepts, not only integer and fixed-point numerals: "1e3" (no decimal
point) is read as 1000 minor units and yields "10.00", and "NaN" and
"Infinity" are accepted without failure. -/
theorem decimal_specials_accepted :
    isIntOrDecNumeral "1e3" = false
    ∧ normalize_amount "1e3" = .ok "10.00"
    ∧ isIntOrDecNumeral "NaN" = false
    ∧ normalize_amount "NaN" = .ok "NaN"
    ∧ isIntOrDecNumeral "Infinity" = false
    ∧ normalize_amount "Infinity" = .ok "Infinity"
    ∧ processLine "16,409,1e3,,,," =
        .ok (some [("record_code", "16"), ("type_code", "409"), ("amount", "10.00"),
          ("funds_type", ""), ("bank_ref", ""), ("customer_ref", ""), ("text", "")]) :=
  ⟨by decide, rfl, by decide, rfl, by decide, rfl, rfl⟩

/-- C2 counterexample: a FileHeader line with three fields decodes to a
record holding only three keys; the schema field `creation_date` is absent
from the record, contradicting the claim that every schema field is
present with the empty string. -/
theorem short_header_missing_field :
    processLine "01,SEND,RECV"
      = .ok (some [("record_code", "01"), ("sender_id", "SEND"), ("receiver_id", "RECV")])
    ∧ "creation_date" ∈ HDR_FIELDS
    ∧ List.lookup "creation_date"
        [("record_code", "01"), ("sender_id", "SEND"), ("receiver_id", "RECV")] = none :=
  ⟨rfl, by decide, rfl⟩

/-- C2 amended: only TransactionDetail ("16") records always hold every
schema field, with the empty string for the missing trailing raw fields;
a "01", "02" or "03" record holds exactly the first fields of its schema,
one per raw field, and the remaining schema fields are absent from the
record (the CSV writer substitutes "" for them only at output time). -/
theorem record_fields_presence :
    (∀ (parts : List String) (r : Record),
        decodeParts parts = .ok (some r) → parts.headD "" = "16" →
        r.map Prod.fst = TXN_FIELDS
        ∧ (∀ f ∈ TXN_FIELDS, (List.lookup f r).isSome = true)
        ∧ (∀ j, j < TXN_FIELDS.length → parts.length ≤ j →
            List.lookup (TXN_FIELDS.getD j "") r = some ""))
    ∧ (∀ (parts : List String) (r : Record),
        decodeParts parts = .ok (some r) →
        parts.headD "" ∈ (["01", "02", "03"] : List String) →
        r.map Prod.fst = (schemaOf (parts.headD "")).take parts.length) := by
  constructor
  · intro parts r h h16
    rw [decodeParts_16 h16] at h
    have hkeys := decode16_keys h
    obtain ⟨a, hn, hr⟩ := decode16_ok_inv h
    refine ⟨hkeys, ?_, ?_⟩
    · intro f hf
      exact lookup_isSome_of_mem_keys (hkeys ▸ hf)
    · intro j hj hpl
      by_cases h2 : parts.length ≤ 2
      · exfalso
        rw [getD_of_length_le parts "" 2 h2] at hn
        rw [show normalize_amount "" = .error .invalidOperation from rfl] at hn
        cases hn
      · have hj3 : 3 ≤ j := by omega
        have hj7 : j < 7 := hj
        rw [hr, lookup_setField]
        interval_cases j <;>
          rw [if_neg (by decide), lookup_txn_zip_getD parts _ (by decide),
            padded_getD_empty parts hpl]
  · intro parts r h hmem
    have hlen : ∀ (F : List String), r = F.zip (parts.take F.length) →
        r.map Prod.fst = F.take parts.length := by
      intro F hF
      rw [hF, map_fst_zip_take, List.length_take, take_min]
    rcases List.mem_cons.mp hmem with h01 | hmem
    · rw [decodeParts_01 h01] at h
      rw [h01]
      exact hlen HDR_FIELDS (Option.some.inj (Except.ok.inj h)).symm
    rcases List.mem_cons.mp hmem with h02 | hmem
    · rw [decodeParts_02 h02] at h
      rw [h02]
      exact hlen GRP_FIELDS (Option.some.inj (Except.ok.inj h)).symm
    rcases List.mem_cons.mp hmem with h03 | hmem
    · rw [decodeParts_03 h03] at h
      rw [h03]
      exact hlen ACC_FIELDS (Option.some.inj (Except.ok.inj h)).symm
    · cases hmem

/-- C2 witness: `record_fields_presence` applied to a short "16" line:
the padded trailing field `funds_type` is present and empty. -/
theorem record_fields_presence_witness :
    List.lookup "funds_type"
      [("record_code", "16"), ("type_code", "409"), ("amount", "0.05"),
       ("funds_type", ""), ("bank_ref", ""), ("customer_ref", ""), ("text", "")]
      = some "" :=
  (record_fields_presence.1 ["16", "409", "5"] _ rfl rfl).2.2 3 (by decide) (by decide)

/-- C3 counterexample: a "16" line whose amount is "NaN" decodes
successfully, and its emitted amount "NaN" is not a fixed-point decimal
string with two fractional digits. -/
theorem txn_amount_nan_not_two_frac :
    processLine "16,409,NaN,,,,"
      = .ok (some [("record_code", "16"), ("type_code", "409"), ("amount", "NaN"),
          ("funds_type", ""), ("bank_ref", ""), ("customer_ref", ""), ("text", "")])
    ∧ isTwoFracDecimal "NaN" = false :=
  ⟨rfl, by decide⟩

/-- C3 amended: whenever the raw amount of a successfully decoded "16"
line parses to a finite decimal value, the emitted amount string has
exactly two fractional digits; only the special values NaN and Infinity
escape this shape. -/
theorem txn_amount_two_frac_of_finite :
    ∀ (amt : String) (s : Bool) (c : Nat) (e : Int) (res : String),
      pyDecimalOfString amt = some (.fin s c e) →
      normalize_amount amt = .ok res →
      isTwoFracDecimal res = true := by
  intro amt s c e res hp hn
  cases hdot : containsDot amt with
  | true =>
      rw [normalize_amount_dot hdot hp] at hn
      obtain rfl : format2f (.fin s c e) = res := Except.ok.inj hn
      obtain ⟨n, hfn⟩ := format2f_fin_exists s c e
      rw [hfn]
      exact isTwoFracDecimal_renderFixed2 s n
  | false =>
      rw [normalize_amount_nodot hdot hp] at hn
      cases hd : divide100 (.fin s c e) with
      | error e2 =>
          rw [hd] at hn
          replace hn : (Except.error e2 : Except PyExc String) = .ok res := hn
          cases hn
      | ok x =>
          rw [hd] at hn
          replace hn : (Except.ok (format2f x) : Except PyExc String) = .ok res := hn
          obtain ⟨s', c', e', rfl⟩ := divide100_fin_ok hd
          obtain rfl : format2f (.fin s' c' e') = res := Except.ok.inj hn
          obtain ⟨n, hfn⟩ := format2f_fin_exists s' c' e'
          rw [hfn]
          exact isTwoFracDecimal_renderFixed2 s' n

/-- C3 witness: `txn_amount_two_frac_of_finite` at the amount "123.456",
normalized to "123.46". -/
theorem txn_amount_two_frac_of_finite_witness :
    isTwoFracDecimal "123.46" = true :=
  txn_amount_two_frac_of_finite "123.456" false 123456 (-3) "123.46" rfl rfl

/-- C4 counterexample: the amount "NaN" cannot be read as an integer or
decimal number, yet the "16" line decodes without any failure - the
failure condition is not equivalent to "amount is not an integer or
decimal number". -/
theorem nan_amount_accepted :
    isIntOrDecNumeral "NaN" = false
    ∧ decodeParts ["16", "409", "NaN", "", "", "", ""]
        = .ok (some [("record_code", "16"), ("type_code", "409"), ("amount", "NaN"),
            ("funds_type", ""), ("bank_ref", ""), ("customer_ref", ""), ("text", "")]) :=
  ⟨by decide, rfl⟩

/-- C4 amended: a decode-time failure occurs on a line exactly when it is
a "16" line whose amount normalization fails; normalization fails only
when the decimal parser rejects the amount, or the amount is a signaling
NaN, or the division overflows the decimal exponent range - in
particular every parser-rejected amount fails, while quiet NaN and
Infinity are accepted.  The failure is propagated unchanged to the caller
(as the bare decimal exception, which carries neither line number nor raw
text) and is never replaced by a fallback amount. -/
theorem decode_failure_characterization :
    (∀ (parts : List String) (err : PyExc),
        decodeParts parts = .error err
          ↔ parts.headD "" = "16" ∧ normalize_amount (rawAmountOf parts) = .error err)
    ∧ (∀ (amt : String) (err : PyExc),
        normalize_amount amt = .error err
          ↔ (pyDecimalOfString amt = none ∧ err = .invalidOperation)
            ∨ (∃ sg p, pyDecimalOfString amt = some (.nan sg true p)
                ∧ err = .invalidOperation)
            ∨ (∃ s c e, pyDecimalOfString amt = some (.fin s c e)
                ∧ containsDot amt = false ∧ divide100 (.fin s c e) = .error err))
    ∧ (∀ (s : Bool) (c : Nat) (e : Int) (err : PyExc),
        divide100 (.fin s c e) = .error err → err = .overflow)
    ∧ normalize_amount "NaN" = .ok "NaN"
    ∧ normalize_amount "Infinity" = .ok "Infinity"
    ∧ (∀ (l : String) (ls : List String) (err : PyExc),
        processLine l = .error err → parse_bai2 (l :: ls) = .error err) :=
  ⟨decodeParts_error_iff,
   normalize_error_iff,
   fun _ _ _ _ => divide100_fin_error,
   rfl,
   rfl,
   fun _ _ _ => parse_bai2_cons_error⟩

/-- C4 witness: `decode_failure_characterization` at a "16" line with the
garbage amount "abc", and at the signaling-NaN amount "sNaN". -/
theorem decode_failure_characterization_witness :
    decodeParts ["16", "409", "abc"] = .error .invalidOperation
    ∧ normalize_amount "sNaN" = .error .invalidOperation :=
  ⟨(decode_failure_characterization.1 ["16", "409", "abc"] .invalidOperation).mpr
      ⟨rfl, (decode_failure_characterization.2.1 "abc" .invalidOperation).mpr
        (Or.inl ⟨rfl, rfl⟩)⟩,
   (decode_failure_characterization.2.1 "sNaN" .invalidOperation).mpr
      (Or.inr (Or.inl ⟨false, [], rfl, rfl⟩))⟩

/-- C8: a FileHeader or AccountIdentifier line whose comma-split field
count equals its schema length decodes to a record whose values are the
raw fields verbatim, and joining those values with commas reproduces the
original line. -/
theorem header_account_roundtrip :
    (∀ (line : String) (parts : List String),
        pySplitComma line = parts → parts.headD "" = "01" →
        parts.length = HDR_FIELDS.length →
        decodeParts parts = .ok (some (HDR_FIELDS.zip parts))
        ∧ (HDR_FIELDS.zip parts).map Prod.snd = parts
        ∧ joinComma ((HDR_FIELDS.zip parts).map Prod.snd) = line)
    ∧ (∀ (line : String) (parts : List String),
        pySplitComma line = parts → parts.headD "" = "03" →
        parts.length = ACC_FIELDS.length →
        decodeParts parts = .ok (some (ACC_FIELDS.zip parts))
        ∧ (ACC_FIELDS.zip parts).map Prod.snd = parts
        ∧ joinComma ((ACC_FIELDS.zip parts).map Prod.snd) = line) := by
  constructor
  · intro line parts hsplit hcode hlen
    have htake : parts.take HDR_FIELDS.length = parts := by
      rw [← hlen, List.take_length]
    refine ⟨by rw [decodeParts_01 hcode, htake], map_snd_zip_of_length_eq _ _ hlen.symm, ?_⟩
    rw [map_snd_zip_of_length_eq _ _ hlen.symm, ← hsplit, joinComma_pySplitComma]
  · intro line parts hsplit hcode hlen
    have htake : parts.take ACC_FIELDS.length = parts := by
      rw [← hlen, List.take_length]
    refine ⟨by rw [decodeParts_03 hcode, htake], map_snd_zip_of_length_eq _ _ hlen.symm, ?_⟩
    rw [map_snd_zip_of_length_eq _ _ hlen.symm, ← hsplit, joinComma_pySplitComma]

/-- C8 witness: `header_account_roundtrip` at a full FileHeader line. -/
theorem header_account_roundtrip_witness :
    joinComma ((HDR_FIELDS.zip
      (pySplitComma "01,SEND,RECV,240101,0101,1,2,80")).map Prod.snd)
      = "01,SEND,RECV,240101,0101,1,2,80" :=
  (header_account_roundtrip.1 "01,SEND,RECV,240101,0101,1,2,80" _ rfl rfl (by decide)).2.2

/-- C9: on raw amounts that contain a decimal point and parse, the
normalization is idempotent: normalizing the rendered result of a
successful normalization returns that result unchanged. -/
theorem normalize_idempotent_on_dotted :
    ∀ x y : String, containsDot x = true → normalize_amount x = .ok y →
      normalize_amount y = .ok y := by
  intro x y hdot hn
  cases hp : pyDecimalOfString x with
  | none => rw [normalize_amount_none hp] at hn; cases hn
  | some d =>
      obtain ⟨s, c, e, rfl⟩ := parse_dot_fin hdot hp
      rw [normalize_amount_dot hdot hp] at hn
      obtain rfl : format2f (.fin s c e) = y := Except.ok.inj hn
      obtain ⟨n, hfn⟩ := format2f_fin_exists s c e
      rw [hfn]
      rw [normalize_amount_dot (containsDot_renderFixed2 s n) (parse_renderFixed2 s n),
        format2f_fin_neg2]

/-- C9 witness: `normalize_idempotent_on_dotted` at "2.345", which
normalizes to "2.34". -/
theorem normalize_idempotent_on_dotted_witness :
    normalize_amount "2.34" = .ok "2.34" :=
  normalize_idempotent_on_dotted "2.345" "2.34" rfl rfl

/-- C7: the converter emits exactly three tables - FileHeader rows,
AccountIdentifier rows and TransactionDetail rows, selected by record
code; GroupHeader ("02") records are decoded but land in no table; each
table starts with its schema as the column row, and every cell of a data
row is present, with the empty string for any field absent from the
record. -/
theorem converter_output_tables :
    (∀ (lines : List String) (hts ats tts : List (List String)),
        convert lines = .ok (hts, ats, tts) →
        ∃ recs, parse_bai2 lines = .ok recs
          ∧ hts = write_csv (recs.filter (fun r => recordCode r = "01")) HDR_FIELDS
          ∧ ats = write_csv (recs.filter (fun r => recordCode r = "03")) ACC_FIELDS
          ∧ tts = write_csv (recs.filter (fun r => recordCode r = "16")) TXN_FIELDS
          ∧ hts.head? = some HDR_FIELDS
          ∧ ats.head? = some ACC_FIELDS
          ∧ tts.head? = some TXN_FIELDS
          ∧ (∀ r ∈ recs, recordCode r = "02" →
              r ∉ recs.filter (fun r => recordCode r = "01")
              ∧ r ∉ recs.filter (fun r => recordCode r = "03")
              ∧ r ∉ recs.filter (fun r => recordCode r = "16")))
    ∧ (∀ parts : List String, parts.headD "" = "02" →
        decodeParts parts = .ok (some (GRP_FIELDS.zip (parts.take GRP_FIELDS.length))))
    ∧ (∀ (cols : List String) (r : Record), (csvRow cols r).length = cols.length)
    ∧ (∀ (cols : List String) (r : Record) (i : Nat), i < cols.length →
        List.lookup (cols.getD i "") r = none → (csvRow cols r).getD i "?" = "") := by
  refine ⟨?_, ?_, csvRow_length, ?_⟩
  · intro lines hts ats tts h
    cases hp : parse_bai2 lines with
    | error e =>
        rw [show convert lines = .error e from by unfold convert; rw [hp]] at h
        cases h
    | ok recs =>
        rw [convert_ok hp] at h
        have hinj := Except.ok.inj h
        have h1 := congrArg Prod.fst hinj
        have h23 := congrArg Prod.snd hinj
        have h2 := congrArg Prod.fst h23
        have h3 := congrArg Prod.snd h23
        simp only at h1 h2 h3
        subst h1
        subst h2
        subst h3
        refine ⟨recs, rfl, rfl, rfl, rfl, rfl, rfl, rfl, ?_⟩
        intro r _ h02
        refine ⟨?_, ?_, ?_⟩ <;>
          · intro hmem
            have hcode := of_decide_eq_true (List.mem_filter.mp hmem).2
            rw [h02] at hcode
            exact absurd hcode (by decide)
  · intro parts h02
    exact decodeParts_02 h02
  · intro cols r i hi hnone
    rw [csvRow_getD cols r i hi, hnone]
    rfl

/-- C7 witness: `converter_output_tables` applied to a four-record input;
the header table indeed starts with the FileHeader schema. -/
theorem converter_output_tables_witness :
    convert ["01,S,R,240101,0101,1,2,80/", "02,1,2,240101,0101,USD/",
        "03,ACCT,USD,010/", "16,409,12345,,REF1,CUST1,desc"]
      = .ok
        ([["record_code", "sender_id", "receiver_id", "creation_date", "creation_time",
            "file_id", "version", "physical_record_length"],
            ["01", "S", "R", "240101", "0101", "1", "2", "80"]],
         [["record_code", "account_number", "currency", "type_code_summary"],
            ["03", "ACCT", "USD", "010"]],
         [["record_code", "type_code", "amount", "funds_type", "bank_ref",
            "customer_ref", "text"],
            ["16", "409", "123.45", "", "REF1", "CUST1", "desc"]])
    ∧ [["record_code", "sender_id", "receiver_id", "creation_date", "creation_time",
        "file_id", "version", "physical_record_length"],
        ["01", "S", "R", "240101", "0101", "1", "2", "80"]].head? = some HDR_FIELDS := by
  constructor
  · rfl
  · obtain ⟨recs, -, -, -, -, hhead, -⟩ :=
      converter_output_tables.1
        ["01,S,R,240101,0101,1,2,80/", "02,1,2,240101,0101,USD/",
          "03,ACCT,USD,010/", "16,409,12345,,REF1,CUST1,desc"]
        [["record_code", "sender_id", "receiver_id", "creation_date", "creation_time",
          "file_id", "version", "physical_record_length"],
          ["01", "S", "R", "240101", "0101", "1", "2", "80"]]
        [["record_code", "account_number", "currency", "type_code_summary"],
          ["03", "ACCT", "USD", "010"]]
        [["record_code", "type_code", "amount", "funds_type", "bank_ref",
          "customer_ref", "text"],
          ["16", "409", "123.45", "", "REF1", "CUST1", "desc"]]
        rfl
    exact hhead

/-- C1 counterexample: a 31-digit integer amount satisfies the claim's
hypothesis, but the default decimal context rounds the division to 28
significant digits, so the decoder does not return the exact quotient:
the exact value of (10^30+1)/100 ends in ".01", the code emits ".00". -/
theorem amount_normalization_prec_cex :
    decomposeIntNumeral "1000000000000000000000000000001" = some (false, 10 ^ 30 + 1)
    ∧ normalize_amount "1000000000000000000000000000001"
        = .ok "10000000000000000000000000000.00"
    ∧ exactCents false (10 ^ 30 + 1) = "10000000000000000000000000000.01"
    ∧ normalize_amount "1000000000000000000000000000001"
        ≠ .ok (exactCents false (10 ^ 30 + 1)) := by
  refine ⟨rfl, rfl, rfl, ?_⟩
  intro hcontra
  rw [show normalize_amount "1000000000000000000000000000001"
      = .ok "10000000000000000000000000000.00" from rfl,
    show exactCents false (10 ^ 30 + 1) = "10000000000000000000000000000.01" from rfl]
    at hcontra
  exact absurd (Except.ok.inj hcontra) (by decide)

/-- C1 amended: a dot-free amount is read as an integer count of minor
units and divided by 100, exactly whenever the integer has at most 28
significant digits (the decimal context precision; longer coefficients
are rounded half-even), and the result is re-rendered with exactly two
fractional digits, preserving sign; the stated examples hold bit-exactly. -/
theorem amount_normalization_prec :
    (∀ (s : String) (sg : Bool) (n : Nat),
        decomposeIntNumeral s = some (sg, n) → n < 10 ^ prec →
        normalize_amount s = .ok (exactCents sg n))
    ∧ normalize_amount "12345" = .ok "123.45"
    ∧ normalize_amount "123.45" = .ok "123.45"
    ∧ normalize_amount "-500" = .ok "-5.00"
    ∧ processLine "16,409,12345,,REF1,CUST1,desc"
        = .ok (some [("record_code", "16"), ("type_code", "409"), ("amount", "123.45"),
            ("funds_type", ""), ("bank_ref", "REF1"), ("customer_ref", "CUST1"),
            ("text", "desc")]) := by
  have hex : processLine "16,409,12345,,REF1,CUST1,desc"
      = Except.ok (some [("record_code", "16"), ("type_code", "409"), ("amount", "123.45"),
          ("funds_type", ""), ("bank_ref", "REF1"), ("customer_ref", "CUST1"),
          ("text", "desc")]) := rfl
  refine ⟨?_, rfl, rfl, rfl, hex⟩
  intro s sg n hd hlt
  obtain ⟨hsg, hne, hdig, hn⟩ := decomposeIntNumeral_inv hd
  have hchars : ∀ c ∈ s.data, isDigitChar c = true ∨ c = '-' ∨ c = '+' := by
    rcases signSplit_inv s.data with hs | ⟨c0, hc0, hs⟩
    · intro c hc
      rw [hs] at hc
      exact Or.inl (hdig c hc)
    · intro c hc
      rw [hs] at hc
      rcases List.mem_cons.mp hc with hc | hc
      · exact Or.inr (hc ▸ hc0)
      · exact Or.inl (hdig c hc)
  have hdotf : containsDot s = false := by
    cases hc : containsDot s with
    | false => rfl
    | true =>
        exfalso
        rcases hchars '.' (mem_of_contains hc) with h | h | h <;>
          exact absurd h (by decide)
  have hparse : pyDecimalOfString s = some (.fin sg n 0) := by
    rw [pyDecimalOfString_clean
      (fun c hc => by
        rcases hchars c hc with h | h | h
        · exact digit_not_space h
        · subst h; decide
        · subst h; decide)
      (fun c hc => by
        rcases hchars c hc with h | h | h
        · exact (digit_not_special h).2.2.1
        · subst h; decide
        · subst h; decide), hn]
    exact parseSigned_signSplit_digits (by rw [← hsg]) hne hdig
  rw [normalize_amount_nodot hdotf hparse, divide100_small hlt]
  show Except.ok (format2f (PyDecimal.fin sg n (-2))) = .ok (exactCents sg n)
  rw [format2f_fin_neg2, exactCents_eq_renderFixed2]

/-- C1 witness: `amount_normalization_prec` at the amount "777". -/
theorem amount_normalization_prec_witness :
    normalize_amount "777" = .ok (exactCents false 777) :=
  amount_normalization_prec.1 "777" false 777 rfl (by norm_num [prec])

end Bai2
